import Mathlib

/-!
Verification of the iterated shortest-path LZ77 parser ("squeeze") of
zopfli, as implemented in src/zopfli/squeeze.c.

Modelling conventions of this shallow embedding:
* C `double`/`float` cost values are modelled by exact rationals `ℚ`
  (the algorithmic claims are about the comparison/accumulation structure);
* the external collaborators (`ZopfliFindLongestMatch`, `ZopfliHashSame`,
  the input buffer, the cost model) are modelled as total function
  parameters, mirroring the specification's treatment of the longest-match
  search as an oracle;
* the `costs` and `length_array` buffers are modelled as total functions
  `Nat → ℚ` / `Nat → Nat`; uninitialized memory is represented by a caller
  supplied initial function;
* loops are modelled by structural recursion on an explicit fuel that is
  provably sufficient, so every definition is executable.
-/

/-- `ZOPFLI_MAX_MATCH` from util.h. -/
def ZOPFLI_MAX_MATCH : Nat := 258

/-- `ZOPFLI_MIN_MATCH` from util.h. -/
def ZOPFLI_MIN_MATCH : Nat := 3

/-- `ZOPFLI_WINDOW_SIZE` from util.h. -/
def ZOPFLI_WINDOW_SIZE : Nat := 32768

/-- `ZOPFLI_WINDOW_MASK` from util.h. -/
def ZOPFLI_WINDOW_MASK : Nat := 32767

/-- `ZOPFLI_LARGE_FLOAT` (1e30) from util.h, the sentinel for "unreached". -/
def ZOPFLI_LARGE_FLOAT : ℚ := 10 ^ 30

/-- Parameters of one squeeze pass: the block range, the input bytes, the
cost model `cm litlen dist`, and the longest-match / hash oracles.
`leng i` and `sublen i k` are the length and per-length best distance
returned by `ZopfliFindLongestMatch` at position `i` (with the hash updated
through `i`, which the code guarantees at every query point); `hsame i s`
is the entry `s` of the array returned by `ZopfliHashSame` at that moment;
`flmDist p l` is the distance returned by the longest-match call of
`FollowPath` at position `p` with length cap `l`. -/
structure SqueezeParams where
  instart : Nat
  inend : Nat
  inp : Nat → Nat
  cm : Nat → Nat → ℚ
  leng : Nat → Nat
  sublen : Nat → Nat → Nat
  hsame : Nat → Nat → Nat
  flmDist : Nat → Nat → Nat

/-- The mutable state of the forward DP: the `costs` buffer and the
`length_array` output buffer. -/
structure GBLState where
  costs : Nat → ℚ
  lengths : Nat → Nat

/-- The 30 distance-class representatives of `GetCostModelMinCost`
(`dsymbols` in squeeze.c). -/
def dsymbols : List Nat :=
  [1, 2, 3, 4, 5, 7, 9, 13, 17, 25, 33, 49, 65, 97, 129] ++
  [193, 257, 385, 513, 769, 1025, 1537, 2049, 3073, 4097, 6145, 8193,
   12289, 16385, 24577]

/-- `GetCostModelMinCost` from squeeze.c: scan `cm l 1` for `l ∈ [3,258]`
keeping the minimizing length, scan `cm 3 d` over the 30 distance-class
representatives keeping the minimizing distance, and return the model at
the two kept arguments.  The accumulator pair is `(best, mincost)`,
initialized to `(0, ZOPFLI_LARGE_FLOAT)` before each scan, exactly as in
the source. -/
def getCostModelMinCost (cm : Nat → Nat → ℚ) : ℚ :=
  let p1 := (List.range' 3 256).foldl
    (fun p l => if cm l 1 < p.2 then (l, cm l 1) else p) (0, ZOPFLI_LARGE_FLOAT)
  let p2 := dsymbols.foldl
    (fun p d => if cm 3 d < p.2 then (d, cm 3 d) else p) (0, ZOPFLI_LARGE_FLOAT)
  cm p1.1 p2.1

/-- The guard of the run-of-same-byte fast path (squeeze.c lines 152-156):
`hsame[i & ZOPFLI_WINDOW_MASK] > ZOPFLI_MAX_MATCH * 2
 && i > instart + ZOPFLI_MAX_MATCH + 1
 && i + ZOPFLI_MAX_MATCH * 2 + 1 < inend
 && hsame[(i - ZOPFLI_MAX_MATCH) & ZOPFLI_WINDOW_MASK] > ZOPFLI_MAX_MATCH`. -/
def sameCond (P : SqueezeParams) (i : Nat) : Bool :=
  decide (ZOPFLI_MAX_MATCH * 2 < P.hsame i (Nat.land i ZOPFLI_WINDOW_MASK))
  && decide (P.instart + ZOPFLI_MAX_MATCH + 1 < i)
  && decide (i + ZOPFLI_MAX_MATCH * 2 + 1 < P.inend)
  && decide (ZOPFLI_MAX_MATCH <
       P.hsame i (Nat.land (i - ZOPFLI_MAX_MATCH) ZOPFLI_WINDOW_MASK))

/-- One iteration of the fast-path inner loop (squeeze.c lines 161-167):
write `costs[j + ZOPFLI_MAX_MATCH] = costs[j] + symbolcost`,
`length_array[j + ZOPFLI_MAX_MATCH] = ZOPFLI_MAX_MATCH`, and advance
`i` and `j` by one (the hash update is implicit in the oracle model). -/
def gblFastStep (symbolcost : ℚ) (s : Nat × Nat × GBLState) : Nat × Nat × GBLState :=
  ⟨s.1 + 1, s.2.1 + 1,
    { costs := Function.update s.2.2.costs (s.2.1 + ZOPFLI_MAX_MATCH)
        (s.2.2.costs s.2.1 + symbolcost),
      lengths := Function.update s.2.2.lengths (s.2.1 + ZOPFLI_MAX_MATCH)
        ZOPFLI_MAX_MATCH }⟩

/-- The fast-path inner loop with `n` iterations remaining. -/
def gblFastIter (symbolcost : ℚ) : Nat → Nat × Nat × GBLState → Nat × Nat × GBLState
  | 0, s => s
  | n + 1, s => gblFastIter symbolcost n (gblFastStep symbolcost s)

/-- The complete fast-path loop: `ZOPFLI_MAX_MATCH` iterations with
`symbolcost = cm ZOPFLI_MAX_MATCH 1` (squeeze.c line 157). -/
def gblFastLoop (P : SqueezeParams) (i j : Nat) (st : GBLState) : Nat × Nat × GBLState :=
  gblFastIter (P.cm ZOPFLI_MAX_MATCH 1) ZOPFLI_MAX_MATCH (i, j, st)

/-- The literal-edge relaxation (squeeze.c lines 175-182). -/
def literalRelax (P : SqueezeParams) (i j : Nat) (st : GBLState) : GBLState :=
  if i + 1 ≤ P.inend then
    if st.costs j + P.cm (P.inp i) 0 < st.costs (j + 1) then
      { costs := Function.update st.costs (j + 1) (st.costs j + P.cm (P.inp i) 0),
        lengths := Function.update st.lengths (j + 1) 1 }
    else st
  else st

/-- One iteration of the match-edge loop at length `k` (squeeze.c lines
184-198), including the pruning test
`costs[j + k] - costs[j] <= mincost → continue`. -/
def matchRelax (P : SqueezeParams) (mincost : ℚ) (i j k : Nat) (st : GBLState) : GBLState :=
  if st.costs (j + k) - st.costs j ≤ mincost then st
  else
    if st.costs j + P.cm k (P.sublen i k) < st.costs (j + k) then
      { costs := Function.update st.costs (j + k) (st.costs j + P.cm k (P.sublen i k)),
        lengths := Function.update st.lengths (j + k) k }
    else st

/-- The match-edge loop with current length `k` and `n` iterations
remaining. -/
def matchIter (P : SqueezeParams) (mincost : ℚ) (i j : Nat) :
    Nat → Nat → GBLState → GBLState
  | 0, _, st => st
  | n + 1, k, st => matchIter P mincost i j n (k + 1) (matchRelax P mincost i j k st)

/-- The complete match-edge loop: `k` runs from 3 while
`k ≤ leng && i + k ≤ inend`, i.e. over `[3, min leng (inend - i)]`. -/
def matchLoop (P : SqueezeParams) (mincost : ℚ) (i j leng : Nat) (st : GBLState) : GBLState :=
  matchIter P mincost i j (min leng (P.inend - i) - 2) 3 st

/-- The body of the main DP loop at position `i` (squeeze.c lines 145-198):
optional fast path, then a longest-match query at the (possibly advanced)
position, literal relaxation, and the match loop.  Returns the position at
which the body ended (the `for` loop then increments it). -/
def gblBody (P : SqueezeParams) (mincost : ℚ) (i : Nat) (st : GBLState) : Nat × GBLState :=
  let j := i - P.instart
  let t := if sameCond P i then gblFastLoop P i j st else (i, j, st)
  let st2 := literalRelax P t.1 t.2.1 t.2.2
  let st3 := matchLoop P mincost t.1 t.2.1 (P.leng t.1) st2
  (t.1, st3)

/-- The main DP loop, with explicit fuel: while `i < inend`, run the body
and continue at the returned position plus one. -/
def runGBLAux (P : SqueezeParams) (mincost : ℚ) :
    Nat → Nat → GBLState → GBLState
  | 0, _, st => st
  | fuel + 1, i, st =>
    if i < P.inend then
      let r := gblBody P mincost i st
      runGBLAux P mincost fuel (r.1 + 1) r.2
    else st

/-- The initial DP state (squeeze.c lines 141-143): `costs[0] = 0`, all
other cost entries `ZOPFLI_LARGE_FLOAT`, and `length_array[0] = 0` written
into the caller-supplied buffer `la0`. -/
def gblInit (la0 : Nat → Nat) : GBLState :=
  { costs := fun m => if m = 0 then 0 else ZOPFLI_LARGE_FLOAT,
    lengths := Function.update la0 0 0 }

/-- `GetBestLengths` from squeeze.c.  Returns the cost to reach the end,
the final `length_array` contents, and (when the block is non-empty) the
final `costs` buffer; an empty block returns 0 immediately without
allocating `costs` or writing `length_array`. -/
def getBestLengths (P : SqueezeParams) (la0 : Nat → Nat) :
    ℚ × (Nat → Nat) × Option (Nat → ℚ) :=
  if P.instart = P.inend then (0, la0, none)
  else
    let mincost := getCostModelMinCost P.cm
    let stF := runGBLAux P mincost (P.inend - P.instart) P.instart (gblInit la0)
    (stF.costs (P.inend - P.instart), stF.lengths, some stF.costs)

/-! The same DP with the pruning step removed, used to state the
refinement claim: identical to `matchRelax`/`matchIter`/`matchLoop`/
`gblBody`/`runGBLAux`/`getBestLengths` except that the test
`costs[j + k] - costs[j] ≤ mincost → continue` is absent. -/

/-- `matchRelax` with the pruning test removed. -/
def matchRelaxNoPrune (P : SqueezeParams) (i j k : Nat) (st : GBLState) : GBLState :=
  if st.costs j + P.cm k (P.sublen i k) < st.costs (j + k) then
    { costs := Function.update st.costs (j + k) (st.costs j + P.cm k (P.sublen i k)),
      lengths := Function.update st.lengths (j + k) k }
  else st

/-- `matchIter` without pruning. -/
def matchIterNoPrune (P : SqueezeParams) (i j : Nat) :
    Nat → Nat → GBLState → GBLState
  | 0, _, st => st
  | n + 1, k, st => matchIterNoPrune P i j n (k + 1) (matchRelaxNoPrune P i j k st)

/-- `matchLoop` without pruning. -/
def matchLoopNoPrune (P : SqueezeParams) (i j leng : Nat) (st : GBLState) : GBLState :=
  matchIterNoPrune P i j (min leng (P.inend - i) - 2) 3 st

/-- `gblBody` without pruning. -/
def gblBodyNoPrune (P : SqueezeParams) (i : Nat) (st : GBLState) : Nat × GBLState :=
  let j := i - P.instart
  let t := if sameCond P i then gblFastLoop P i j st else (i, j, st)
  let st2 := literalRelax P t.1 t.2.1 t.2.2
  let st3 := matchLoopNoPrune P t.1 t.2.1 (P.leng t.1) st2
  (t.1, st3)

/-- `runGBLAux` without pruning. -/
def runGBLAuxNoPrune (P : SqueezeParams) :
    Nat → Nat → GBLState → GBLState
  | 0, _, st => st
  | fuel + 1, i, st =>
    if i < P.inend then
      let r := gblBodyNoPrune P i st
      runGBLAuxNoPrune P fuel (r.1 + 1) r.2
    else st

/-- `GetBestLengths` with the pruning step removed (the comparison DP of
the refinement claim; everything else is identical, including the fast
path and the min-cost probe evaluation). -/
def getBestLengthsNoPrune (P : SqueezeParams) (la0 : Nat → Nat) :
    ℚ × (Nat → Nat) × Option (Nat → ℚ) :=
  if P.instart = P.inend then (0, la0, none)
  else
    let stF := runGBLAuxNoPrune P (P.inend - P.instart) P.instart (gblInit la0)
    (stF.costs (P.inend - P.instart), stF.lengths, some stF.costs)

/-- The traceback loop of `TraceBackwards` (squeeze.c lines 220-227) with
explicit fuel: append `length_array[index]`, subtract it from `index`,
stop when `index` reaches 0.  `none` models non-termination of the C loop
(which can only happen when the `length_array` invariant is violated;
note the C `size_t` wrap-around on `index -= length_array[index]` with
`length_array[index] > index` is likewise excluded by that invariant). -/
def traceAux (lengths : Nat → Nat) : Nat → Nat → List Nat → Option (List Nat)
  | 0, _, _ => none
  | fuel + 1, index, acc =>
    let acc2 := acc ++ [lengths index]
    if index - lengths index = 0 then some acc2
    else traceAux lengths fuel (index - lengths index) acc2

/-- `TraceBackwards` from squeeze.c: an empty size returns the (empty)
path unchanged; otherwise run the traceback loop and mirror the result
(the in-place reversal of lines 230-234). -/
def traceBackwards (size : Nat) (lengths : Nat → Nat) : Option (List Nat) :=
  if size = 0 then some []
  else (traceAux lengths size size []).map List.reverse

/-- One LZ77 symbol as appended by `ZopfliStoreLitLenDist`:
`litlen` is the byte value when `dist = 0` and the match length otherwise;
`pos` is the source offset. -/
structure LZSym where
  litlen : Nat
  dist : Nat
  pos : Nat
deriving DecidableEq

/-- `FollowPath` from squeeze.c (the store-building part): walk the path
from `instart`; an edge `≥ ZOPFLI_MIN_MATCH` re-queries the longest-match
oracle for its distance and appends a match symbol, any other edge appends
a literal and advances by one.  An empty block returns the store
unchanged (line 249). -/
def followPath (P : SqueezeParams) (path : List Nat) (store : List LZSym) : List LZSym :=
  if P.instart = P.inend then store
  else
    (path.foldl
      (fun acc length =>
        if ZOPFLI_MIN_MATCH ≤ length then
          (acc.1 ++ [⟨length, P.flmDist acc.2 length, acc.2⟩], acc.2 + length)
        else
          (acc.1 ++ [⟨P.inp acc.2, 0, acc.2⟩], acc.2 + 1))
      (store, P.instart)).1

/-- `LZ77OptimalRun` from squeeze.c: DP, then traceback on a freshly
emptied path, then replay into the store; returns the model cost together
with the final `length_array`, path and store (`none` if the traceback
fails to terminate, which the DP invariant excludes). -/
def lZ77OptimalRun (P : SqueezeParams) (la0 : Nat → Nat) (store : List LZSym) :
    Option (ℚ × (Nat → Nat) × List Nat × List LZSym) :=
  let r := getBestLengths P la0
  (traceBackwards (P.inend - P.instart) r.2.1).map
    (fun path => (r.1, r.2.1, path, followPath P path store))

/-! The iterated optimizer `ZopfliLZ77Optimal`.  The symbol statistics,
the LZ77 store, and the random-number state are opaque external types in
squeeze.c (`SymbolStats`, `ZopfliLZ77Store`, `RanState` together with all
functions operating on them are `extern`); they are modelled as type
parameters with oracle operations. -/

/-- The external collaborators of `ZopfliLZ77Optimal`:
`greedy` is the store produced by the seeding `ZopfliLZ77Greedy` call;
`getStats s` is the result of `ClearStatFreqs` + `GetStatistics` from
store `s` (the initial `GetStatistics` on a fresh zeroed stats object has
the same effect); `runStore st` is the store produced by `LZ77OptimalRun`
with the statistical cost model bound to `st` (deterministic given the
fixed block); `blockSize s` is
`ZopfliCalculateBlockSize(s, 0, s.size, 2)`; `addWeighed a b` is
`AddWeighedStatFreqs(a, 1.0, b, 0.5, ·)`; `calcStats` is
`CalculateStatistics`; `randomize r st` is `RandomizeStatFreqs` with its
evolving random state; `statsInit` is `symbol_stats_new()` and `ranInit`
is `ran_state_new()`. -/
structure OptOracles (Store Stats Ran : Type) where
  greedy : Store
  getStats : Store → Stats
  runStore : Stats → Store
  blockSize : Store → ℚ
  addWeighed : Stats → Stats → Stats
  calcStats : Stats → Stats
  randomize : Ran → Stats → Stats × Ran
  statsInit : Stats
  ranInit : Ran

/-- The loop state of `ZopfliLZ77Optimal`: `out` is the caller's output
store (`none` while nothing has been copied into it). -/
structure OptState (Store Stats Ran : Type) where
  out : Option Store
  stats : Stats
  beststats : Stats
  laststats : Stats
  bestcost : ℚ
  lastcost : ℚ
  lastrandomstep : Int
  ran : Ran

/-- One iteration of the optimizer loop (squeeze.c lines 369-402):
run the optimal parse with the current statistics, compute its true
dynamic-Huffman block size, update the retained best on strict
improvement, re-derive statistics from the parse, blend with the previous
statistics once randomization has fired, and randomize on stagnation. -/
def optStep {Store Stats Ran : Type} (O : OptOracles Store Stats Ran)
    (i : Nat) (st : OptState Store Stats Ran) : OptState Store Stats Ran :=
  let current := O.runStore st.stats
  let cost := O.blockSize current
  let st1 := if cost < st.bestcost then
      { st with out := some current, beststats := st.stats, bestcost := cost }
    else st
  let st2 := { st1 with laststats := st1.stats }
  let st3 := { st2 with stats := O.getStats current }
  let st4 := if st3.lastrandomstep ≠ -1 then
      { st3 with stats := O.calcStats (O.addWeighed st3.stats st3.laststats) }
    else st3
  let st5 := if 5 < i ∧ cost = st.lastcost then
      let rs := O.randomize st4.ran st4.beststats
      { st4 with stats := O.calcStats rs.1, ran := rs.2, lastrandomstep := (i : Int) }
    else st4
  { st5 with lastcost := cost }

/-- The initial optimizer state (squeeze.c lines 346-365): fresh stats
objects, `bestcost = ZOPFLI_LARGE_FLOAT`, `lastcost = 0`,
`lastrandomstep = -1`, statistics seeded from the greedy parse, and the
output store untouched. -/
def optInit {Store Stats Ran : Type} (O : OptOracles Store Stats Ran) :
    OptState Store Stats Ran :=
  { out := none, stats := O.getStats O.greedy, beststats := O.statsInit,
    laststats := O.statsInit, bestcost := ZOPFLI_LARGE_FLOAT, lastcost := 0,
    lastrandomstep := -1, ran := O.ranInit }

/-- `ZopfliLZ77Optimal` from squeeze.c: the greedy seed followed by
`numiterations` iterations of the statistics-driven loop (a non-positive
C `int` iteration count runs the loop zero times, matching `Nat`). -/
def zopfliLZ77Optimal {Store Stats Ran : Type} (O : OptOracles Store Stats Ran)
    (numiterations : Nat) : OptState Store Stats Ran :=
  (List.range numiterations).foldl (fun st i => optStep O i st) (optInit O)

/-! Specification-side notions used to state the DP-optimality claim:
admissible edge sequences and their model cost. -/

/-- An admissible edge at absolute position `i`: a literal (length 1) or a
match of length `k ∈ [3, best_len]` where `best_len` is what the
longest-match oracle offers at `i`. -/
def edgeAdmissible (P : SqueezeParams) (i e : Nat) : Prop :=
  e = 1 ∨ (3 ≤ e ∧ e ≤ P.leng i)

/-- The model cost of an admissible edge at position `i`: `cm in[i] 0`
for a literal, `cm e (sublen e)` for a match. -/
def edgeCostQ (P : SqueezeParams) (i e : Nat) : ℚ :=
  if e = 1 then P.cm (P.inp i) 0 else P.cm e (P.sublen i e)

/-- Admissibility of an edge sequence starting at absolute position `i`. -/
def pathAdmissible (P : SqueezeParams) : Nat → List Nat → Prop
  | _, [] => True
  | i, e :: es => edgeAdmissible P i e ∧ pathAdmissible P (i + e) es

/-- The cumulative model cost of an edge sequence starting at `i`. -/
def pathCost (P : SqueezeParams) : Nat → List Nat → ℚ
  | _, [] => 0
  | i, e :: es => edgeCostQ P i e + pathCost P (i + e) es

/-- The claim that the final `costs` buffer of `GetBestLengths` is a lower
bound on the cost of every admissible edge sequence (the "minimal
cumulative cost" half of the DP-optimality claim, stated for the
zero-initialized length buffer). -/
def gblCostsMinimal (P : SqueezeParams) : Prop :=
  ∀ cf, (getBestLengths P (fun _ => 0)).2.2 = some cf →
    ∀ j, j ≤ P.inend - P.instart →
      ∀ es, pathAdmissible P P.instart es → es.sum = j →
        cf j ≤ pathCost P P.instart es

/-- The claim that every index of `[0, B]` is reached (improved strictly
below the sentinel) by the DP pass. -/
def gblAllReachable (P : SqueezeParams) : Prop :=
  ∀ cf, (getBestLengths P (fun _ => 0)).2.2 = some cf →
    ∀ j, j ≤ P.inend - P.instart → cf j < ZOPFLI_LARGE_FLOAT

/-- The fast-path guard as worded by the specification claim, with
non-strict thresholds `≥ 2·ZOPFLI_MAX_MATCH` and `≥ ZOPFLI_MAX_MATCH` on
the two run-length tests. -/
def sameCondClaim (P : SqueezeParams) (i : Nat) : Prop :=
  ZOPFLI_MAX_MATCH * 2 ≤ P.hsame i (Nat.land i ZOPFLI_WINDOW_MASK)
  ∧ P.instart + ZOPFLI_MAX_MATCH + 1 < i
  ∧ i + ZOPFLI_MAX_MATCH * 2 + 1 < P.inend
  ∧ ZOPFLI_MAX_MATCH ≤ P.hsame i (Nat.land (i - ZOPFLI_MAX_MATCH) ZOPFLI_WINDOW_MASK)

/-! Basic lemmas about the fast-path loop. -/

/-- The fast-path loop advances the position and index by one per
iteration. -/
lemma gblFastIter_fst (sc : ℚ) (n : Nat) (s : Nat × Nat × GBLState) :
    (gblFastIter sc n s).1 = s.1 + n ∧ (gblFastIter sc n s).2.1 = s.2.1 + n := by
  induction n generalizing s with
  | zero => simp [gblFastIter]
  | succ n ih =>
    have h := ih (gblFastStep sc s)
    simp only [gblFastIter, gblFastStep] at h ⊢
    omega

/-- Entries strictly below the first write index are untouched by the
fast-path loop. -/
lemma gblFastIter_lo (sc : ℚ) (n : Nat) (s : Nat × Nat × GBLState) (m : Nat)
    (hm : m < s.2.1 + ZOPFLI_MAX_MATCH) :
    (gblFastIter sc n s).2.2.costs m = s.2.2.costs m ∧
    (gblFastIter sc n s).2.2.lengths m = s.2.2.lengths m := by
  induction n generalizing s with
  | zero => simp [gblFastIter]
  | succ n ih =>
    have h := ih (gblFastStep sc s) (by simp [gblFastStep]; omega)
    simp only [gblFastIter] at h ⊢
    rw [h.1, h.2]
    simp only [gblFastStep]
    constructor <;>
      · rw [Function.update_apply, if_neg (by omega)]

/-- Entries at or beyond the last write index are untouched by the
fast-path loop. -/
lemma gblFastIter_hi (sc : ℚ) (n : Nat) (s : Nat × Nat × GBLState) (m : Nat)
    (hm : s.2.1 + ZOPFLI_MAX_MATCH + n ≤ m) :
    (gblFastIter sc n s).2.2.costs m = s.2.2.costs m ∧
    (gblFastIter sc n s).2.2.lengths m = s.2.2.lengths m := by
  induction n generalizing s with
  | zero => simp [gblFastIter]
  | succ n ih =>
    have h := ih (gblFastStep sc s) (by simp [gblFastStep]; omega)
    simp only [gblFastIter] at h ⊢
    rw [h.1, h.2]
    simp only [gblFastStep]
    constructor <;>
      · rw [Function.update_apply, if_neg (by omega)]

/-- The `k`-th iteration of the fast-path loop (for `n ≤ ZOPFLI_MAX_MATCH`
iterations in total) writes `costs[j + ZOPFLI_MAX_MATCH + k] =
costs[j + k] + symbolcost` and the corresponding length entry, reading the
pre-loop cost value. -/
lemma gblFastIter_write (sc : ℚ) (n : Nat) (hn : n ≤ ZOPFLI_MAX_MATCH)
    (s : Nat × Nat × GBLState) (k : Nat) (hk : k < n) :
    (gblFastIter sc n s).2.2.costs (s.2.1 + ZOPFLI_MAX_MATCH + k) =
      s.2.2.costs (s.2.1 + k) + sc ∧
    (gblFastIter sc n s).2.2.lengths (s.2.1 + ZOPFLI_MAX_MATCH + k) =
      ZOPFLI_MAX_MATCH := by
  induction n generalizing s k with
  | zero => omega
  | succ n ih =>
    rcases Nat.eq_zero_or_pos k with hk0 | hk0
    · subst hk0
      have h := gblFastIter_lo sc n (gblFastStep sc s)
        (s.2.1 + ZOPFLI_MAX_MATCH) (by simp only [gblFastStep]; omega)
      simp only [gblFastIter, Nat.add_zero] at h ⊢
      rw [h.1, h.2]
      simp only [gblFastStep]
      constructor <;> · rw [Function.update_apply, if_pos rfl]
    · obtain ⟨k', rfl⟩ : ∃ k', k = k' + 1 := ⟨k - 1, by omega⟩
      have h := ih (by omega) (gblFastStep sc s) k' (by omega)
      simp only [gblFastIter, gblFastStep] at h ⊢
      have e1 : s.2.1 + 1 + ZOPFLI_MAX_MATCH + k' = s.2.1 + ZOPFLI_MAX_MATCH + (k' + 1) := by
        omega
      have e2 : s.2.1 + 1 + k' = s.2.1 + (k' + 1) := by omega
      rw [e1, e2] at h
      refine ⟨?_, h.2⟩
      rw [h.1, Function.update_apply,
        if_neg (by simp only [ZOPFLI_MAX_MATCH] at hn hk ⊢; omega)]

/-! Basic lemmas about the literal relaxation and the match loop. -/

/-- The literal relaxation only touches index `j + 1`. -/
lemma literalRelax_frame (P : SqueezeParams) (i j : Nat) (st : GBLState)
    (m : Nat) (hm : m ≠ j + 1) :
    (literalRelax P i j st).costs m = st.costs m ∧
    (literalRelax P i j st).lengths m = st.lengths m := by
  unfold literalRelax
  split
  · split
    · constructor <;> · dsimp only; rw [Function.update_apply, if_neg hm]
    · exact ⟨rfl, rfl⟩
  · exact ⟨rfl, rfl⟩

/-- The literal relaxation never increases a cost entry. -/
lemma literalRelax_le (P : SqueezeParams) (i j : Nat) (st : GBLState) (m : Nat) :
    (literalRelax P i j st).costs m ≤ st.costs m := by
  unfold literalRelax
  split
  · split
    next hlt =>
      dsimp only
      rw [Function.update_apply]
      split
      next he => subst he; exact le_of_lt hlt
      · exact le_refl _
    · exact le_refl _
  · exact le_refl _

/-- After the literal relaxation, `costs (j+1)` is at most
`costs j + cm in[i] 0` (when the in-bounds test passes). -/
lemma literalRelax_bound (P : SqueezeParams) (i j : Nat) (st : GBLState)
    (hin : i + 1 ≤ P.inend) :
    (literalRelax P i j st).costs (j + 1) ≤ st.costs j + P.cm (P.inp i) 0 := by
  unfold literalRelax
  rw [if_pos hin]
  split
  next hlt => dsimp only; rw [Function.update_apply, if_pos rfl]
  next hlt => exact le_of_not_lt hlt

/-- The match loop only touches indices in `[j + k, j + k + n)`. -/
lemma matchIter_frame (P : SqueezeParams) (mc : ℚ) (i j : Nat) (n k : Nat)
    (st : GBLState) (m : Nat) (hm : m < j + k ∨ j + k + n ≤ m) :
    (matchIter P mc i j n k st).costs m = st.costs m ∧
    (matchIter P mc i j n k st).lengths m = st.lengths m := by
  induction n generalizing k st with
  | zero => simp [matchIter]
  | succ n ih =>
    have h := ih (k + 1) (matchRelax P mc i j k st) (by omega)
    simp only [matchIter] at h ⊢
    rw [h.1, h.2]
    unfold matchRelax
    split
    · exact ⟨rfl, rfl⟩
    · split
      · constructor <;> · dsimp only; rw [Function.update_apply, if_neg (by omega)]
      · exact ⟨rfl, rfl⟩

/-- The match loop never increases a cost entry. -/
lemma matchIter_le (P : SqueezeParams) (mc : ℚ) (i j : Nat) (n k : Nat)
    (st : GBLState) (m : Nat) :
    (matchIter P mc i j n k st).costs m ≤ st.costs m := by
  induction n generalizing k st with
  | zero => simp [matchIter]
  | succ n ih =>
    refine le_trans (ih (k + 1) (matchRelax P mc i j k st)) ?_
    unfold matchRelax
    split
    · exact le_refl _
    next hpr =>
      split
      next hlt =>
        dsimp only
        rw [Function.update_apply]
        split
        next he => subst he; exact le_of_lt hlt
        · exact le_refl _
      · exact le_refl _

/-- After the match loop has passed length `e` (with `0 < k ≤ e < k + n`),
`costs (j + e)` is at most `costs j + cm e (sublen i e)`, provided the
pruning floor `mc` is below that edge cost. -/
lemma matchIter_bound (P : SqueezeParams) (mc : ℚ) (i j : Nat) (n k : Nat)
    (st : GBLState) (e : Nat) (hk : 0 < k) (hke : k ≤ e) (hen : e < k + n)
    (hmc : mc ≤ P.cm e (P.sublen i e)) :
    (matchIter P mc i j n k st).costs (j + e) ≤ st.costs j + P.cm e (P.sublen i e) := by
  induction n generalizing k st with
  | zero => omega
  | succ n ih =>
    rcases Nat.eq_or_lt_of_le hke with he | he
    · subst he
      simp only [matchIter]
      refine le_trans (matchIter_le P mc i j n (k + 1) (matchRelax P mc i j k st) (j + k)) ?_
      unfold matchRelax
      split
      next hpr => linarith [hpr, hmc]
      next hpr =>
        split
        next hlt => dsimp only; rw [Function.update_apply, if_pos rfl]
        next hlt => exact le_of_not_lt hlt
    · have hstep : (matchRelax P mc i j k st).costs j = st.costs j := by
        unfold matchRelax
        split
        · rfl
        · split
          · dsimp only; rw [Function.update_apply, if_neg (by omega)]
          · rfl
      simp only [matchIter]
      refine le_trans
        (ih (k + 1) (matchRelax P mc i j k st) (by omega) (by omega) (by omega)) ?_
      rw [hstep]

/-! Lemmas about one loop body and about the whole DP loop. -/

/-- The position returned by the loop body: unchanged without the fast
path, advanced by `ZOPFLI_MAX_MATCH` with it. -/
lemma gblBody_fst (P : SqueezeParams) (mc : ℚ) (i : Nat) (st : GBLState) :
    (gblBody P mc i st).1 = if sameCond P i then i + ZOPFLI_MAX_MATCH else i := by
  unfold gblBody
  split
  next h =>
    simp only [h, if_true]
    exact (gblFastIter_fst _ _ _).1
  next h => simp [h]

/-- The loop body never moves the position backwards. -/
lemma gblBody_fst_ge (P : SqueezeParams) (mc : ℚ) (i : Nat) (st : GBLState) :
    i ≤ (gblBody P mc i st).1 := by
  rw [gblBody_fst]
  split <;> omega

/-- The loop body leaves every index `m` with `m + instart ≤ i`
untouched: all its writes land strictly beyond the current offset. -/
lemma gblBody_frame_low (P : SqueezeParams) (mc : ℚ) (i : Nat) (st : GBLState)
    (m : Nat) (hm : m + P.instart ≤ i) :
    (gblBody P mc i st).2.costs m = st.costs m ∧
    (gblBody P mc i st).2.lengths m = st.lengths m := by
  have hji : m ≤ i - P.instart := by omega
  unfold gblBody matchLoop gblFastLoop
  split
  next h =>
    have hfst := (gblFastIter_fst (P.cm ZOPFLI_MAX_MATCH 1) ZOPFLI_MAX_MATCH
      (i, i - P.instart, st)).2
    have hlo := gblFastIter_lo (P.cm ZOPFLI_MAX_MATCH 1) ZOPFLI_MAX_MATCH
      (i, i - P.instart, st) m
      (show m < (i - P.instart) + ZOPFLI_MAX_MATCH by
        simp only [ZOPFLI_MAX_MATCH]; omega)
    have hfst : (gblFastIter (P.cm ZOPFLI_MAX_MATCH 1) ZOPFLI_MAX_MATCH
        (i, i - P.instart, st)).2.1 = (i - P.instart) + ZOPFLI_MAX_MATCH := hfst
    have hlo : (gblFastIter (P.cm ZOPFLI_MAX_MATCH 1) ZOPFLI_MAX_MATCH
          (i, i - P.instart, st)).2.2.costs m = st.costs m ∧
        (gblFastIter (P.cm ZOPFLI_MAX_MATCH 1) ZOPFLI_MAX_MATCH
          (i, i - P.instart, st)).2.2.lengths m = st.lengths m := hlo
    set q := gblFastIter (P.cm ZOPFLI_MAX_MATCH 1) ZOPFLI_MAX_MATCH
      (i, i - P.instart, st) with hq
    have hm2 : m ≠ q.2.1 + 1 := by rw [hfst]; omega
    have hmf := matchIter_frame P mc q.1 q.2.1
      (min (P.leng q.1) (P.inend - q.1) - 2) 3
      (literalRelax P q.1 q.2.1 q.2.2) m (by left; rw [hfst]; omega)
    have hlf := literalRelax_frame P q.1 q.2.1 q.2.2 m hm2
    rw [hmf.1, hmf.2, hlf.1, hlf.2]
    exact ⟨hlo.1, hlo.2⟩
  next h =>
    have hm2 : m ≠ (i - P.instart) + 1 := by omega
    have hmf := matchIter_frame P mc i (i - P.instart)
      (min (P.leng i) (P.inend - i) - 2) 3
      (literalRelax P i (i - P.instart) st) m (by left; omega)
    have hlf := literalRelax_frame P i (i - P.instart) st m hm2
    rw [hmf.1, hmf.2, hlf.1, hlf.2]
    exact ⟨rfl, rfl⟩

/-- Without the fast path the loop body never increases a cost entry. -/
lemma gblBody_le (P : SqueezeParams) (mc : ℚ) (i : Nat) (st : GBLState)
    (h : sameCond P i = false) (m : Nat) :
    (gblBody P mc i st).2.costs m ≤ st.costs m := by
  unfold gblBody matchLoop
  rw [h]
  simp only [Bool.false_eq_true, if_false]
  exact le_trans
    (matchIter_le P mc i (i - P.instart) _ 3 (literalRelax P i (i - P.instart) st) m)
    (literalRelax_le P i (i - P.instart) st m)

/-- Relaxation property of the loop body at its own position: after the
body at `i` (fast path disabled), the cost of the endpoint of any
admissible edge from `i` is bounded by the body-input cost at `i` plus the
edge cost.  For a match edge the pruning floor must lie below the edge
cost. -/
lemma gblBody_relax (P : SqueezeParams) (mc : ℚ) (i : Nat) (st : GBLState)
    (hnf : sameCond P i = false) (_hi : P.instart ≤ i) (hilt : i < P.inend)
    (e : Nat) (he : edgeAdmissible P i e) (hie : i + e ≤ P.inend)
    (hmc : e ≠ 1 → mc ≤ P.cm e (P.sublen i e)) :
    (gblBody P mc i st).2.costs (i - P.instart + e) ≤
      st.costs (i - P.instart) + edgeCostQ P i e := by
  unfold gblBody matchLoop
  rw [hnf]
  simp only [Bool.false_eq_true, if_false]
  set j := i - P.instart with hj
  rcases he with he1 | ⟨he3, hel⟩
  · subst he1
    have hb := literalRelax_bound P i j st (by omega)
    have hfr := matchIter_frame P mc i j (min (P.leng i) (P.inend - i) - 2) 3
      (literalRelax P i j st) (j + 1) (by left; omega)
    rw [hfr.1]
    unfold edgeCostQ
    rw [if_pos rfl]
    exact hb
  · have hne : e ≠ 1 := by omega
    have hKe : e ≤ min (P.leng i) (P.inend - i) := by
      refine le_min hel ?_
      omega
    have hb := matchIter_bound P mc i j (min (P.leng i) (P.inend - i) - 2) 3
      (literalRelax P i j st) e (by omega) he3
      (by omega) (hmc hne)
    have hlj := (literalRelax_frame P i j st j (by omega)).1
    unfold edgeCostQ
    rw [if_neg hne]
    calc (matchIter P mc i j (min (P.leng i) (P.inend - i) - 2) 3
        (literalRelax P i j st)).costs (j + e)
        ≤ (literalRelax P i j st).costs j + P.cm e (P.sublen i e) := hb
      _ = st.costs j + P.cm e (P.sublen i e) := by rw [hlj]

/-- Once the loop has reached position `i`, every index `m` with
`m + instart ≤ i` is final: the remainder of the pass never changes
`costs m` or `length_array m`.  This is the finality invariant of the DP
(it holds with or without the fast path). -/
lemma runGBLAux_frame_low (P : SqueezeParams) (mc : ℚ) (fuel : Nat) :
    ∀ (i : Nat) (st : GBLState) (m : Nat), m + P.instart ≤ i →
    (runGBLAux P mc fuel i st).costs m = st.costs m ∧
    (runGBLAux P mc fuel i st).lengths m = st.lengths m := by
  induction fuel with
  | zero => intro i st m _; exact ⟨rfl, rfl⟩
  | succ fuel ih =>
    intro i st m hm
    unfold runGBLAux
    split
    next h =>
      have hge := gblBody_fst_ge P mc i st
      have h1 := ih ((gblBody P mc i st).1 + 1) (gblBody P mc i st).2 m (by omega)
      have h2 := gblBody_frame_low P mc i st m hm
      rw [h1.1, h1.2, h2.1, h2.2]
      exact ⟨rfl, rfl⟩
    · exact ⟨rfl, rfl⟩

/-- When the fast-path guard is false at every position of the block, the
DP loop never increases a cost entry. -/
lemma runGBLAux_le (P : SqueezeParams) (mc : ℚ)
    (hnf : ∀ i', i' < P.inend → sameCond P i' = false) (fuel : Nat) :
    ∀ (i : Nat) (st : GBLState) (m : Nat),
    (runGBLAux P mc fuel i st).costs m ≤ st.costs m := by
  induction fuel with
  | zero => intro i st m; exact le_refl _
  | succ fuel ih =>
    intro i st m
    unfold runGBLAux
    split
    next h =>
      exact le_trans (ih ((gblBody P mc i st).1 + 1) (gblBody P mc i st).2 m)
        (gblBody_le P mc i st (hnf i h) m)
    · exact le_refl _

/-- Key relaxation property of the full DP loop: if the fast path never
fires and the pruning floor is below every match cost offered by the
oracle, then for every position `i0` in the unprocessed range and every
admissible edge from `i0` staying inside the block, the final cost at the
edge's endpoint is at most the final cost at `i0` plus the edge cost. -/
lemma runGBLAux_edge (P : SqueezeParams) (mc : ℚ)
    (hnf : ∀ i', i' < P.inend → sameCond P i' = false)
    (hmcH : ∀ i k, P.instart ≤ i → i < P.inend → 3 ≤ k → k ≤ P.leng i →
      mc ≤ P.cm k (P.sublen i k)) (fuel : Nat) :
    ∀ (i : Nat) (st : GBLState) (i0 e : Nat),
      P.instart ≤ i → i ≤ i0 → i0 < P.inend → i0 - i < fuel →
      edgeAdmissible P i0 e → i0 + e ≤ P.inend →
      (runGBLAux P mc fuel i st).costs (i0 - P.instart + e) ≤
        (runGBLAux P mc fuel i st).costs (i0 - P.instart) + edgeCostQ P i0 e := by
  induction fuel with
  | zero => intro i st i0 e _ _ _ h; omega
  | succ fuel ih =>
    intro i st i0 e hii hle hi0 hfu hadm hie
    have hlt : i < P.inend := by omega
    have hfst : (gblBody P mc i st).1 = i := by
      rw [gblBody_fst, hnf i hlt]
      simp
    unfold runGBLAux
    rw [if_pos hlt]
    show (runGBLAux P mc fuel ((gblBody P mc i st).1 + 1) (gblBody P mc i st).2).costs
        (i0 - P.instart + e) ≤
      (runGBLAux P mc fuel ((gblBody P mc i st).1 + 1) (gblBody P mc i st).2).costs
        (i0 - P.instart) + edgeCostQ P i0 e
    rw [hfst]
    rcases Nat.eq_or_lt_of_le hle with heq | hlt2
    · subst heq
      have hrelax := gblBody_relax P mc i st (hnf i hlt) hii hlt e hadm hie
        (fun hne => by
          rcases hadm with h1 | ⟨h3, hl⟩
          · exact absurd h1 hne
          · exact hmcH i e hii hlt h3 hl)
      have hmono := runGBLAux_le P mc hnf fuel (i + 1)
        (gblBody P mc i st).2 (i - P.instart + e)
      have hstab := runGBLAux_frame_low P mc fuel (i + 1)
        (gblBody P mc i st).2 (i - P.instart) (by omega)
      rw [hstab.1]
      have hfrm := gblBody_frame_low P mc i st (i - P.instart) (by omega)
      rw [hfrm.1]
      exact le_trans hmono hrelax
    · exact ih (i + 1) (gblBody P mc i st).2 i0 e (by omega) (by omega) hi0
        (by omega) hadm hie

/-- Appending an edge to an admissible path. -/
lemma pathAdmissible_append (P : SqueezeParams) (e : Nat) :
    ∀ (es : List Nat) (a : Nat), pathAdmissible P a (es ++ [e]) ↔
      pathAdmissible P a es ∧ edgeAdmissible P (a + es.sum) e := by
  intro es
  induction es with
  | nil =>
    intro a
    show edgeAdmissible P a e ∧ True ↔ True ∧ edgeAdmissible P (a + ([] : List Nat).sum) e
    simp
  | cons x xs ih =>
    intro a
    show edgeAdmissible P a x ∧ pathAdmissible P (a + x) (xs ++ [e]) ↔
      (edgeAdmissible P a x ∧ pathAdmissible P (a + x) xs) ∧
        edgeAdmissible P (a + (x :: xs).sum) e
    rw [ih (a + x)]
    have e1 : a + x + xs.sum = a + (x :: xs).sum := by
      simp only [List.sum_cons]
      omega
    rw [e1, and_assoc]

/-- The cost of a path with one appended edge. -/
lemma pathCost_append (P : SqueezeParams) (e : Nat) :
    ∀ (es : List Nat) (a : Nat), pathCost P a (es ++ [e]) =
      pathCost P a es + edgeCostQ P (a + es.sum) e := by
  intro es
  induction es with
  | nil =>
    intro a
    show edgeCostQ P a e + 0 = 0 + edgeCostQ P (a + ([] : List Nat).sum) e
    simp
  | cons x xs ih =>
    intro a
    show edgeCostQ P a x + pathCost P (a + x) (xs ++ [e]) =
      (edgeCostQ P a x + pathCost P (a + x) xs) + edgeCostQ P (a + (x :: xs).sum) e
    rw [ih (a + x)]
    have e1 : a + x + xs.sum = a + (x :: xs).sum := by
      simp only [List.sum_cons]
      omega
    rw [e1, add_assoc]

/-- Every admissible edge has positive length. -/
lemma edgeAdmissible_pos (P : SqueezeParams) (i e : Nat)
    (h : edgeAdmissible P i e) : 1 ≤ e := by
  rcases h with h | ⟨h, _⟩ <;> omega

/-- Leastness along paths: the final cost at the endpoint of an admissible
edge sequence from `i` is bounded by the final cost at `i` plus the path
cost (fast path disabled, pruning floor valid). -/
lemma runGBL_path_le (P : SqueezeParams) (mc : ℚ)
    (hnf : ∀ i', i' < P.inend → sameCond P i' = false)
    (hmcH : ∀ i k, P.instart ≤ i → i < P.inend → 3 ≤ k → k ≤ P.leng i →
      mc ≤ P.cm k (P.sublen i k)) (st0 : GBLState) :
    ∀ (es : List Nat) (i : Nat), P.instart ≤ i → i + es.sum ≤ P.inend →
      pathAdmissible P i es →
      (runGBLAux P mc (P.inend - P.instart) P.instart st0).costs (i + es.sum - P.instart) ≤
        (runGBLAux P mc (P.inend - P.instart) P.instart st0).costs (i - P.instart) +
          pathCost P i es := by
  intro es
  induction es with
  | nil =>
    intro i hi hsum _
    show (runGBLAux P mc (P.inend - P.instart) P.instart st0).costs
        (i + ([] : List Nat).sum - P.instart) ≤
      (runGBLAux P mc (P.inend - P.instart) P.instart st0).costs (i - P.instart) + 0
    simp
  | cons e es ih =>
    intro i hi hsum hadm
    rcases hadm with ⟨hedge, hrest⟩
    have hepos := edgeAdmissible_pos P i e hedge
    have hsumc : i + (e :: es).sum = (i + e) + es.sum := by
      simp only [List.sum_cons]
      omega
    have hsum' : (i + e) + es.sum ≤ P.inend := by omega
    have h1 := ih (i + e) (by omega) hsum' hrest
    have hi0 : i < P.inend := by omega
    have h2 := runGBLAux_edge P mc hnf hmcH (P.inend - P.instart)
      P.instart st0 i e (le_refl _) hi hi0 (by omega) hedge (by omega)
    show (runGBLAux P mc (P.inend - P.instart) P.instart st0).costs
        (i + (e :: es).sum - P.instart) ≤
      (runGBLAux P mc (P.inend - P.instart) P.instart st0).costs (i - P.instart) +
        (edgeCostQ P i e + pathCost P (i + e) es)
    have e1 : i + (e :: es).sum - P.instart = (i + e) + es.sum - P.instart := by omega
    have e2 : i + e - P.instart = i - P.instart + e := by omega
    rw [e1]
    refine le_trans h1 ?_
    rw [e2] at h1 ⊢
    rw [← add_assoc]
    exact add_le_add_right h2 _

/-- Attainment invariant of the DP state: every entry is at most the
sentinel, and every entry strictly below the sentinel is the cost of some
admissible edge sequence from the block start. -/
def gblGood (P : SqueezeParams) (st : GBLState) : Prop :=
  (∀ m, st.costs m ≤ ZOPFLI_LARGE_FLOAT) ∧
  (∀ m, st.costs m ≠ ZOPFLI_LARGE_FLOAT →
    ∃ es, pathAdmissible P P.instart es ∧ es.sum = m ∧
      pathCost P P.instart es = st.costs m)

/-- The literal relaxation preserves the attainment invariant. -/
lemma literalRelax_good (P : SqueezeParams) (hnn : ∀ l d, 0 ≤ P.cm l d)
    (i : Nat) (hii : P.instart ≤ i) (st : GBLState) (hg : gblGood P st) :
    gblGood P (literalRelax P i (i - P.instart) st) := by
  set j := i - P.instart with hj
  unfold literalRelax
  split
  · split
    next hlt =>
      have hjne : st.costs j ≠ ZOPFLI_LARGE_FLOAT := by
        intro hJ
        have h1 := hg.1 (j + 1)
        have h2 := hnn (P.inp i) 0
        rw [hJ] at hlt
        linarith
      obtain ⟨es, hadm, hsum, hcost⟩ := hg.2 j hjne
      constructor
      · intro m
        dsimp only
        rw [Function.update_apply]
        split
        next he =>
          have := hg.1 (j + 1)
          linarith
        · exact hg.1 m
      · intro m hm
        dsimp only at hm ⊢
        rw [Function.update_apply] at hm ⊢
        by_cases he : m = j + 1
        · refine ⟨es ++ [1], ?_, ?_, ?_⟩
          · rw [pathAdmissible_append]
            refine ⟨hadm, ?_⟩
            rw [hsum]
            exact Or.inl rfl
          · rw [List.sum_append, hsum]
            simp [he]
          · rw [pathCost_append, hsum, hcost]
            have hpos : P.instart + j = i := by omega
            rw [if_pos he, hpos]
            unfold edgeCostQ
            rw [if_pos rfl]
        · rw [if_neg he] at hm
          rw [if_neg he]
          exact hg.2 m hm
    · exact hg
  · exact hg

/-- One match relaxation preserves the attainment invariant (for an edge
length the oracle actually offers). -/
lemma matchRelax_good (P : SqueezeParams) (mc : ℚ) (hnn : ∀ l d, 0 ≤ P.cm l d)
    (i k : Nat) (hii : P.instart ≤ i) (hk3 : 3 ≤ k) (hkl : k ≤ P.leng i)
    (st : GBLState) (hg : gblGood P st) :
    gblGood P (matchRelax P mc i (i - P.instart) k st) := by
  set j := i - P.instart with hj
  unfold matchRelax
  split
  · exact hg
  · split
    next hlt =>
      have hjne : st.costs j ≠ ZOPFLI_LARGE_FLOAT := by
        intro hJ
        have h1 := hg.1 (j + k)
        have h2 := hnn k (P.sublen i k)
        rw [hJ] at hlt
        linarith
      obtain ⟨es, hadm, hsum, hcost⟩ := hg.2 j hjne
      constructor
      · intro m
        dsimp only
        rw [Function.update_apply]
        split
        next he =>
          have := hg.1 (j + k)
          linarith
        · exact hg.1 m
      · intro m hm
        dsimp only at hm ⊢
        rw [Function.update_apply] at hm ⊢
        by_cases he : m = j + k
        · refine ⟨es ++ [k], ?_, ?_, ?_⟩
          · rw [pathAdmissible_append]
            refine ⟨hadm, ?_⟩
            rw [hsum]
            exact Or.inr ⟨hk3, by
              have hpos : P.instart + j = i := by omega
              rw [hpos]
              exact hkl⟩
          · rw [List.sum_append, hsum]
            simp [he]
          · rw [pathCost_append, hsum, hcost]
            have hpos : P.instart + j = i := by omega
            rw [if_pos he, hpos]
            unfold edgeCostQ
            rw [if_neg (by omega)]
        · rw [if_neg he] at hm
          rw [if_neg he]
          exact hg.2 m hm
    · exact hg

/-- The match loop preserves the attainment invariant when every iterated
length is one the oracle offers. -/
lemma matchIter_good (P : SqueezeParams) (mc : ℚ) (hnn : ∀ l d, 0 ≤ P.cm l d)
    (i : Nat) (hii : P.instart ≤ i) :
    ∀ (n k : Nat) (st : GBLState),
      (∀ k', k ≤ k' → k' < k + n → 3 ≤ k' ∧ k' ≤ P.leng i) →
      gblGood P st → gblGood P (matchIter P mc i (i - P.instart) n k st) := by
  intro n
  induction n with
  | zero => intro k st _ hg; exact hg
  | succ n ih =>
    intro k st hk hg
    simp only [matchIter]
    refine ih (k + 1) _ (fun k' h1 h2 => hk k' (by omega) (by omega)) ?_
    exact matchRelax_good P mc hnn i k hii (hk k (le_refl _) (by omega)).1
      (hk k (le_refl _) (by omega)).2 st hg

/-- Without the fast path, one loop body preserves the attainment
invariant. -/
lemma gblBody_good (P : SqueezeParams) (mc : ℚ) (hnn : ∀ l d, 0 ≤ P.cm l d)
    (i : Nat) (hnf : sameCond P i = false) (hii : P.instart ≤ i)
    (st : GBLState) (hg : gblGood P st) :
    gblGood P (gblBody P mc i st).2 := by
  unfold gblBody matchLoop
  rw [hnf]
  simp only [Bool.false_eq_true, if_false]
  refine matchIter_good P mc hnn i hii _ 3 _ (fun k' h1 h2 => ?_) ?_
  · constructor
    · omega
    · have hm1 : min (P.leng i) (P.inend - i) ≤ P.leng i := min_le_left _ _
      omega
  · exact literalRelax_good P hnn i hii st hg

/-- Without the fast path, the whole DP loop preserves the attainment
invariant. -/
lemma runGBLAux_good (P : SqueezeParams) (mc : ℚ) (hnn : ∀ l d, 0 ≤ P.cm l d)
    (hnf : ∀ i', i' < P.inend → sameCond P i' = false) (fuel : Nat) :
    ∀ (i : Nat) (st : GBLState), P.instart ≤ i → gblGood P st →
      gblGood P (runGBLAux P mc fuel i st) := by
  induction fuel with
  | zero => intro i st _ hg; exact hg
  | succ fuel ih =>
    intro i st hii hg
    unfold runGBLAux
    split
    next h =>
      have hfst : (gblBody P mc i st).1 = i := by
        rw [gblBody_fst, hnf i h]
        simp
      exact ih ((gblBody P mc i st).1 + 1) (gblBody P mc i st).2
        (by omega) (gblBody_good P mc hnn i (hnf i h) hii st hg)
    · exact hg

/-- The initial DP state satisfies the attainment invariant. -/
lemma gblInit_good (P : SqueezeParams) (la0 : Nat → Nat) :
    gblGood P (gblInit la0) := by
  constructor
  · intro m
    unfold gblInit
    dsimp only
    split
    · unfold ZOPFLI_LARGE_FLOAT
      norm_num
    · exact le_refl _
  · intro m hm
    unfold gblInit at hm ⊢
    dsimp only at hm ⊢
    by_cases h0 : m = 0
    · subst h0
      exact ⟨[], trivial, rfl, by simp [pathCost]⟩
    · rw [if_neg h0] at hm
      exact absurd rfl hm

/-! Claim C1: optimality of the forward DP. -/

/-- C1 (amended): under a total non-negative cost model, and under the two
additional hypotheses that (a) the run-of-same-byte fast path never fires
during the pass and (b) the probe value is a lower bound on every match
cost the oracle offers, `GetBestLengths` on a non-empty block computes in
`costs` exactly the minimal cumulative cost to reach every index of
`[0, B]` over all admissible edge sequences (lower bound on every
admissible path, attained whenever the entry is below the sentinel), and
returns `costs[B]`; moreover — unconditionally — once the loop has
reached position `i`, every entry `costs[m]` with `m + instart ≤ i` never
changes for the remainder of the pass. -/
theorem getBestLengths_minimal_of_noFast (P : SqueezeParams) (la0 : Nat → Nat)
    (hne : P.instart < P.inend)
    (hnn : ∀ l d, 0 ≤ P.cm l d)
    (hnf : ∀ i, i < P.inend → sameCond P i = false)
    (hmcH : ∀ i k, P.instart ≤ i → i < P.inend → 3 ≤ k → k ≤ P.leng i →
      getCostModelMinCost P.cm ≤ P.cm k (P.sublen i k)) :
    ∃ cf, (getBestLengths P la0).2.2 = some cf ∧
      (getBestLengths P la0).1 = cf (P.inend - P.instart) ∧
      (∀ j, j ≤ P.inend - P.instart →
        ∀ es, pathAdmissible P P.instart es → es.sum = j →
          cf j ≤ pathCost P P.instart es) ∧
      (∀ j, j ≤ P.inend - P.instart → cf j ≠ ZOPFLI_LARGE_FLOAT →
        ∃ es, pathAdmissible P P.instart es ∧ es.sum = j ∧
          pathCost P P.instart es = cf j) ∧
      (∀ fuel i st m, m + P.instart ≤ i →
        (runGBLAux P (getCostModelMinCost P.cm) fuel i st).costs m = st.costs m) := by
  have hneq : P.instart ≠ P.inend := by omega
  refine ⟨(runGBLAux P (getCostModelMinCost P.cm) (P.inend - P.instart) P.instart
    (gblInit la0)).costs, ?_, ?_, ?_, ?_, ?_⟩
  · unfold getBestLengths
    rw [if_neg hneq]
  · unfold getBestLengths
    rw [if_neg hneq]
  · intro j hj es hadm hsum
    have h0 : (runGBLAux P (getCostModelMinCost P.cm) (P.inend - P.instart)
        P.instart (gblInit la0)).costs 0 = 0 := by
      have := runGBLAux_frame_low P (getCostModelMinCost P.cm)
        (P.inend - P.instart) P.instart (gblInit la0) 0 (by omega)
      rw [this.1]
      unfold gblInit
      simp
    have := runGBL_path_le P (getCostModelMinCost P.cm) hnf hmcH (gblInit la0)
      es P.instart (le_refl _) (by omega) hadm
    rw [hsum] at this
    have e1 : P.instart + j - P.instart = j := by omega
    have e2 : P.instart - P.instart = 0 := by omega
    rw [e1, e2, h0, zero_add] at this
    exact this
  · intro j hj hjne
    exact (runGBLAux_good P (getCostModelMinCost P.cm) hnn hnf
      (P.inend - P.instart) P.instart (gblInit la0) (le_refl _)
      (gblInit_good P la0)).2 j hjne
  · intro fuel i st m hm
    exact (runGBLAux_frame_low P (getCostModelMinCost P.cm) fuel i st m hm).1

/-! Helper lemmas for evaluating the min-cost probe on concrete models. -/

/-- The length scan of the probe leaves its accumulator unchanged when no
scanned cost improves on the running minimum. -/
lemma probeFold1_nochange (cm : Nat → Nat → ℚ) (l : List Nat) :
    ∀ (b : Nat) (m : ℚ), (∀ x ∈ l, ¬ cm x 1 < m) →
    (l.foldl (fun p x => if cm x 1 < p.2 then (x, cm x 1) else p) (b, m)) = (b, m) := by
  induction l with
  | nil => intro b m _; rfl
  | cons x xs ih =>
    intro b m h
    simp only [List.foldl_cons, if_neg (h x (by simp))]
    exact ih b m (fun y hy => h y (by simp [hy]))

/-- The distance scan of the probe leaves its accumulator unchanged when no
scanned cost improves on the running minimum. -/
lemma probeFold2_nochange (cm : Nat → Nat → ℚ) (l : List Nat) :
    ∀ (b : Nat) (m : ℚ), (∀ x ∈ l, ¬ cm 3 x < m) →
    (l.foldl (fun p x => if cm 3 x < p.2 then (x, cm 3 x) else p) (b, m)) = (b, m) := by
  induction l with
  | nil => intro b m _; rfl
  | cons x xs ih =>
    intro b m h
    simp only [List.foldl_cons, if_neg (h x (by simp))]
    exact ih b m (fun y hy => h y (by simp [hy]))

/-- Evaluation of the probe on a model whose scans never improve on the
cost `cm 3 1` of the first scanned point: the probe returns `cm 3 1`. -/
lemma getCostModelMinCost_eval (cm : Nat → Nat → ℚ)
    (hfin : cm 3 1 < ZOPFLI_LARGE_FLOAT)
    (hl : ∀ x ∈ List.range' 4 255, ¬ cm x 1 < cm 3 1)
    (hd : ∀ x ∈ dsymbols.tail, ¬ cm 3 x < cm 3 1) :
    getCostModelMinCost cm = cm 3 1 := by
  unfold getCostModelMinCost
  have e1 : List.range' 3 256 = 3 :: List.range' 4 255 := List.range'_succ ..
  have e2 : dsymbols = 1 :: dsymbols.tail := rfl
  rw [e1, e2]
  simp only [List.foldl_cons]
  rw [if_pos (by exact hfin), if_pos (by exact hfin)]
  rw [probeFold1_nochange cm _ 3 (cm 3 1) hl,
    probeFold2_nochange cm _ 1 (cm 3 1) hd]

/-- A tiny concrete block used as witness input for the DP theorems:
two bytes, a constant cost model, and an oracle offering no matches. -/
def wParams : SqueezeParams :=
  { instart := 0, inend := 2, inp := fun _ => 7, cm := fun _ _ => 1,
    leng := fun _ => 0, sublen := fun _ _ => 1, hsame := fun _ _ => 0,
    flmDist := fun _ _ => 1 }

/-- The probe value of the constant-1 witness model. -/
lemma wParams_probe : getCostModelMinCost wParams.cm = 1 := by
  have h := getCostModelMinCost_eval wParams.cm
    (show (1 : ℚ) < ZOPFLI_LARGE_FLOAT by unfold ZOPFLI_LARGE_FLOAT; norm_num)
    (fun x _ => lt_irrefl 1)
    (fun x _ => lt_irrefl 1)
  exact h

/-- Witness for the amended C1 theorem at the concrete block `wParams`:
the returned cost is bounded by the cost of the all-literal path. -/
theorem getBestLengths_minimal_of_noFast_witness :
    (getBestLengths wParams (fun _ => 0)).1 ≤ pathCost wParams 0 [1, 1] := by
  obtain ⟨cf, h1, h2, h3, h4, h5⟩ :=
    getBestLengths_minimal_of_noFast wParams (fun _ => 0)
      (by norm_num [wParams])
      (fun l d => by norm_num [wParams])
      (fun i _ => rfl)
      (fun i k _ _ _ _ => by
        rw [wParams_probe]
        exact le_refl _)
  rw [h2]
  exact h3 2 (le_refl _) [1, 1] ⟨Or.inl rfl, Or.inl rfl, trivial⟩ rfl

/-- A concrete block refuting the DP-optimality claim as stated: a
12-byte input of period 6, a total non-negative cost model whose probe
value (1000) is far above the cheap distance-6 match costs, and the
matching oracle of that input.  The prune then discards improving edges. -/
def cexParams1 : SqueezeParams :=
  { instart := 0, inend := 12,
    inp := fun i => 97 + i % 6,
    cm := fun l d =>
      if d = 0 then 10 else if d = 6 then (if l = 3 then 1 else 500) else 1000,
    leng := fun i => if i < 6 then (if i = 0 then 0 else 1) else 12 - i,
    sublen := fun _ _ => 6,
    hsame := fun _ _ => 0,
    flmDist := fun _ _ => 6 }

/-- The fast-path guard never fires on the counterexample block (the
run-length oracle reports no runs). -/
lemma cex1_sameCond (i : Nat) : sameCond cexParams1 i = false := rfl

/-- Projection lemmas of the counterexample block, used to drive the
evaluation without unfolding the parameter record itself. -/
lemma cex1_inend : cexParams1.inend = 12 := rfl

lemma cex1_instart : cexParams1.instart = 0 := rfl

lemma cex1_cm (l d : Nat) : cexParams1.cm l d =
    if d = 0 then 10 else if d = 6 then (if l = 3 then 1 else 500) else 1000 := rfl

lemma cex1_leng (i : Nat) : cexParams1.leng i =
    if i < 6 then (if i = 0 then 0 else 1) else 12 - i := rfl

lemma cex1_sublen (i k : Nat) : cexParams1.sublen i k = 6 := rfl

/-- The probe value of the counterexample model is 1000. -/
lemma cex1_probe : getCostModelMinCost cexParams1.cm = 1000 := by
  have h6 : ∀ x ∈ dsymbols.tail, x ≠ 6 ∧ x ≠ 0 := by decide
  have e31 : cexParams1.cm 3 1 = 1000 := by norm_num [cex1_cm]
  have h := getCostModelMinCost_eval cexParams1.cm
    (by rw [e31]; unfold ZOPFLI_LARGE_FLOAT; norm_num)
    (by
      rw [e31]
      intro x _
      norm_num [cex1_cm])
    (by
      rw [e31]
      intro x hx
      rw [cex1_cm, if_neg (h6 x hx).2, if_neg (h6 x hx).1]
      exact lt_irrefl 1000)
  rw [h, e31]

/-- The final `costs` buffer of the counterexample run, with the probe
value already evaluated. -/
lemma cex1_cf : (getBestLengths cexParams1 (fun _ => 0)).2.2 =
    some (runGBLAux cexParams1 1000 12 0 (gblInit (fun _ => 0))).costs := by
  unfold getBestLengths
  rw [if_neg (by norm_num [cex1_instart, cex1_inend])]
  rw [cex1_probe]
  rfl

/-- C1 counterexample: for the total, non-negative cost model of
`cexParams1` the final `costs` buffer of `GetBestLengths` is not minimal:
the admissible edge sequence `[1,1,1,1,1,1,3,3]` reaching index 12 costs
62, strictly less than the final `costs[12]` (91), because the pruning
test `costs[j+k] - costs[j] ≤ mincost` discarded the improving match
edges: the probe value 1000 is not a lower bound on the match costs the
oracle offers, so the pruning step is unsound for this model. -/
theorem gblCostsMinimal_counterexample :
    (∀ l d, 0 ≤ cexParams1.cm l d) ∧ ¬ gblCostsMinimal cexParams1 := by
  constructor
  · intro l d
    rw [cex1_cm]
    split_ifs <;> norm_num
  · intro h
    have h1 := h _ cex1_cf 12 (by rw [cex1_inend, cex1_instart]) [1, 1, 1, 1, 1, 1, 3, 3]
      (by
        refine ⟨Or.inl rfl, Or.inl rfl, Or.inl rfl, Or.inl rfl, Or.inl rfl,
          Or.inl rfl, Or.inr ⟨by norm_num, by norm_num [cex1_leng, cex1_instart]⟩,
          Or.inr ⟨by norm_num, by norm_num [cex1_leng, cex1_instart]⟩, trivial⟩)
      (by decide)
    revert h1
    norm_num [runGBLAux, gblBody, matchLoop, matchIter, matchRelax,
      literalRelax, gblInit, pathCost, edgeCostQ, cex1_sameCond, cex1_cm,
      cex1_leng, cex1_sublen, cex1_inend, cex1_instart,
      Function.update_apply, ZOPFLI_LARGE_FLOAT, ZOPFLI_MAX_MATCH,
      ZOPFLI_MIN_MATCH]

/-! Claim C2: the min-cost probe as a lower bound. -/

/-- Lower-bound property of the length scan: the running minimum after the
scan is below the initial minimum and below every scanned cost. -/
lemma probeFold1_le (cm : Nat → Nat → ℚ) (l : List Nat) :
    ∀ (b : Nat) (m : ℚ),
    (l.foldl (fun p x => if cm x 1 < p.2 then (x, cm x 1) else p) (b, m)).2 ≤ m ∧
    ∀ x ∈ l, (l.foldl (fun p x => if cm x 1 < p.2 then (x, cm x 1) else p) (b, m)).2 ≤ cm x 1 := by
  induction l with
  | nil => intro b m; exact ⟨le_refl _, fun x hx => absurd hx (List.not_mem_nil x)⟩
  | cons x xs ih =>
    intro b m
    simp only [List.foldl_cons]
    split
    next himp =>
      obtain ⟨ha, hb⟩ := ih x (cm x 1)
      refine ⟨le_trans ha (le_of_lt himp), ?_⟩
      intro y hy
      rcases List.mem_cons.1 hy with hy | hy
      · subst hy; exact ha
      · exact hb y hy
    next himp =>
      obtain ⟨ha, hb⟩ := ih b m
      refine ⟨ha, ?_⟩
      intro y hy
      rcases List.mem_cons.1 hy with hy | hy
      · subst hy; exact le_trans ha (le_of_not_lt himp)
      · exact hb y hy

/-- Attainment property of the length scan: the accumulator is either
untouched or holds a scanned length together with its cost. -/
lemma probeFold1_attain (cm : Nat → Nat → ℚ) (l : List Nat) :
    ∀ (b : Nat) (m : ℚ),
    (l.foldl (fun p x => if cm x 1 < p.2 then (x, cm x 1) else p) (b, m)) = (b, m) ∨
    ((l.foldl (fun p x => if cm x 1 < p.2 then (x, cm x 1) else p) (b, m)).1 ∈ l ∧
     (l.foldl (fun p x => if cm x 1 < p.2 then (x, cm x 1) else p) (b, m)).2 =
       cm (l.foldl (fun p x => if cm x 1 < p.2 then (x, cm x 1) else p) (b, m)).1 1) := by
  induction l with
  | nil => intro b m; exact Or.inl rfl
  | cons x xs ih =>
    intro b m
    simp only [List.foldl_cons]
    split
    · rcases ih x (cm x 1) with h | h
      · right
        rw [h]
        exact ⟨List.mem_cons_self x xs, rfl⟩
      · right
        exact ⟨List.mem_cons_of_mem x h.1, h.2⟩
    · rcases ih b m with h | h
      · exact Or.inl h
      · right
        exact ⟨List.mem_cons_of_mem x h.1, h.2⟩

/-- Lower-bound property of the distance scan. -/
lemma probeFold2_le (cm : Nat → Nat → ℚ) (l : List Nat) :
    ∀ (b : Nat) (m : ℚ),
    (l.foldl (fun p x => if cm 3 x < p.2 then (x, cm 3 x) else p) (b, m)).2 ≤ m ∧
    ∀ x ∈ l, (l.foldl (fun p x => if cm 3 x < p.2 then (x, cm 3 x) else p) (b, m)).2 ≤ cm 3 x := by
  induction l with
  | nil => intro b m; exact ⟨le_refl _, fun x hx => absurd hx (List.not_mem_nil x)⟩
  | cons x xs ih =>
    intro b m
    simp only [List.foldl_cons]
    split
    next himp =>
      obtain ⟨ha, hb⟩ := ih x (cm 3 x)
      refine ⟨le_trans ha (le_of_lt himp), ?_⟩
      intro y hy
      rcases List.mem_cons.1 hy with hy | hy
      · subst hy; exact ha
      · exact hb y hy
    next himp =>
      obtain ⟨ha, hb⟩ := ih b m
      refine ⟨ha, ?_⟩
      intro y hy
      rcases List.mem_cons.1 hy with hy | hy
      · subst hy; exact le_trans ha (le_of_not_lt himp)
      · exact hb y hy

/-- Attainment property of the distance scan. -/
lemma probeFold2_attain (cm : Nat → Nat → ℚ) (l : List Nat) :
    ∀ (b : Nat) (m : ℚ),
    (l.foldl (fun p x => if cm 3 x < p.2 then (x, cm 3 x) else p) (b, m)) = (b, m) ∨
    ((l.foldl (fun p x => if cm 3 x < p.2 then (x, cm 3 x) else p) (b, m)).1 ∈ l ∧
     (l.foldl (fun p x => if cm 3 x < p.2 then (x, cm 3 x) else p) (b, m)).2 =
       cm 3 (l.foldl (fun p x => if cm 3 x < p.2 then (x, cm 3 x) else p) (b, m)).1) := by
  induction l with
  | nil => intro b m; exact Or.inl rfl
  | cons x xs ih =>
    intro b m
    simp only [List.foldl_cons]
    split
    · rcases ih x (cm 3 x) with h | h
      · right
        rw [h]
        exact ⟨List.mem_cons_self x xs, rfl⟩
      · right
        exact ⟨List.mem_cons_of_mem x h.1, h.2⟩
    · rcases ih b m with h | h
      · exact Or.inl h
      · right
        exact ⟨List.mem_cons_of_mem x h.1, h.2⟩

/-- C2 (amended): for a cost model that is separable into a length part
plus a distance part on the valid match domain, whose distance part is
constant on the DEFLATE distance-symbol classes (it agrees with some
representative of the `dsymbols` table), and whose scans see at least one
value below the sentinel, the value of `GetCostModelMinCost` is a lower
bound on every MATCH cost `cm k d` with `k ∈ [3, 258]`, `d ∈ [1, 32768]`.
It is not in general a bound on literal costs. -/
theorem getCostModelMinCost_le_matchCost (cm : Nat → Nat → ℚ) (L D : Nat → ℚ)
    (hsep : ∀ l d, 3 ≤ l → l ≤ 258 → 1 ≤ d → d ≤ 32768 → cm l d = L l + D d)
    (hclass : ∀ d, 1 ≤ d → d ≤ 32768 → ∃ r ∈ dsymbols, D d = D r)
    (hfin : cm 3 1 < ZOPFLI_LARGE_FLOAT) :
    ∀ k d, 3 ≤ k → k ≤ 258 → 1 ≤ d → d ≤ 32768 →
      getCostModelMinCost cm ≤ cm k d := by
  intro k d hk3 hk258 hd1 hd2
  have hds : ∀ r ∈ dsymbols, 1 ≤ r ∧ r ≤ 32768 := by decide
  have h1d : (1 : Nat) ∈ dsymbols := by decide
  have h3r : (3 : Nat) ∈ List.range' 3 256 := by decide
  have hkr : k ∈ List.range' 3 256 := List.mem_range'_1.2 ⟨hk3, by omega⟩
  unfold getCostModelMinCost
  obtain ⟨hle1a, hle1b⟩ := probeFold1_le cm (List.range' 3 256) 0 ZOPFLI_LARGE_FLOAT
  obtain ⟨hle2a, hle2b⟩ := probeFold2_le cm dsymbols 0 ZOPFLI_LARGE_FLOAT
  rcases probeFold1_attain cm (List.range' 3 256) 0 ZOPFLI_LARGE_FLOAT with hat1 | hat1
  · exfalso
    have := hle1b 3 h3r
    rw [hat1] at this
    exact absurd (lt_of_le_of_lt this hfin) (lt_irrefl _)
  rcases probeFold2_attain cm dsymbols 0 ZOPFLI_LARGE_FLOAT with hat2 | hat2
  · exfalso
    have := hle2b 1 h1d
    rw [hat2] at this
    exact absurd (lt_of_le_of_lt this hfin) (lt_irrefl _)
  obtain ⟨hbl_mem, hbl_eq⟩ := hat1
  obtain ⟨hbd_mem, hbd_eq⟩ := hat2
  obtain ⟨hbl3, hbl259⟩ := List.mem_range'_1.1 hbl_mem
  obtain ⟨hbd1, hbd2⟩ := hds _ hbd_mem
  obtain ⟨r, hr_mem, hr_eq⟩ := hclass d hd1 hd2
  obtain ⟨hr1, hr2⟩ := hds _ hr_mem
  have hLk : L ((List.range' 3 256).foldl
      (fun p x => if cm x 1 < p.2 then (x, cm x 1) else p) (0, ZOPFLI_LARGE_FLOAT)).1 ≤ L k := by
    have h := hle1b k hkr
    rw [hbl_eq] at h
    rw [hsep _ 1 hbl3 (by omega) (le_refl _) (by norm_num),
      hsep k 1 hk3 hk258 (le_refl _) (by norm_num)] at h
    linarith
  have hDd : D ((dsymbols.foldl
      (fun p x => if cm 3 x < p.2 then (x, cm 3 x) else p) (0, ZOPFLI_LARGE_FLOAT)).1) ≤ D d := by
    have h := hle2b r hr_mem
    rw [hbd_eq] at h
    rw [hsep 3 _ (le_refl _) (by norm_num) hbd1 hbd2,
      hsep 3 r (le_refl _) (by norm_num) hr1 hr2] at h
    rw [hr_eq]
    linarith
  rw [hsep _ _ hbl3 (by omega) hbd1 hbd2, hsep k d hk3 hk258 hd1 hd2]
  exact add_le_add hLk hDd

/-- A separable class-constant witness model for the amended C2 theorem. -/
def wCm2 : Nat → Nat → ℚ := fun _ d => if d = 0 then 0 else 2

/-- Witness for the amended C2 theorem: the probe value of `wCm2` bounds
the match cost at length 3, distance 2. -/
theorem getCostModelMinCost_le_matchCost_witness :
    getCostModelMinCost wCm2 ≤ wCm2 3 2 := by
  refine getCostModelMinCost_le_matchCost wCm2 (fun _ => 2) (fun _ => 0)
    (fun l d _ _ hd _ => ?_) (fun d _ _ => ⟨1, by decide, rfl⟩) ?_
    3 2 (by norm_num) (by norm_num) (by norm_num) (by norm_num)
  · unfold wCm2
    rw [if_neg (by omega)]
    norm_num
  · unfold wCm2 ZOPFLI_LARGE_FLOAT
    norm_num

/-- A cost model refuting C2 as stated: literal costs are 0, distance-6
match costs are 1, everything else costs 7. -/
def cexCm2 : Nat → Nat → ℚ := fun _ d => if d = 0 then 0 else if d = 6 then 1 else 7

/-- The probe value of `cexCm2` is 7 (distance 6 is never scanned: it is
not a class representative, and literals are never scanned at all). -/
lemma cex2_probe : getCostModelMinCost cexCm2 = 7 := by
  have h6 : ∀ x ∈ dsymbols.tail, x ≠ 6 ∧ x ≠ 0 := by decide
  have e31 : cexCm2 3 1 = 7 := by norm_num [cexCm2]
  have h := getCostModelMinCost_eval cexCm2
    (by rw [e31]; unfold ZOPFLI_LARGE_FLOAT; norm_num)
    (by
      rw [e31]
      intro x _
      norm_num [cexCm2])
    (by
      rw [e31]
      intro x hx
      unfold cexCm2
      rw [if_neg (h6 x hx).2, if_neg (h6 x hx).1]
      exact lt_irrefl 7)
  rw [h, e31]

/-- C2 counterexample: for the model `cexCm2` the probe value (7) is
neither a lower bound on the literal cost `cm 97 0 = 0` nor on the match
cost `cm 4 6 = 1` with length 4 ∈ [3,258] and distance 6 ∈ [1,32768]: the
probe never scans literal costs, and samples only the 30 distance-class
representatives, so a model that is cheaper inside a class escapes it. -/
theorem getCostModelMinCost_not_lower_bound :
    ¬ (getCostModelMinCost cexCm2 ≤ cexCm2 97 0) ∧
    ¬ (getCostModelMinCost cexCm2 ≤ cexCm2 4 6) := by
  rw [cex2_probe]
  constructor <;> · norm_num [cexCm2]

/-! Claim C3: the pruning step does not change the result when the floor
is valid. -/

/-- One match relaxation with and without the prune agree when the floor
is below the edge cost: a pruned edge could not have improved. -/
lemma matchRelax_eq_noPrune (P : SqueezeParams) (mc : ℚ) (i j k : Nat)
    (st : GBLState) (hmck : mc ≤ P.cm k (P.sublen i k)) :
    matchRelax P mc i j k st = matchRelaxNoPrune P i j k st := by
  unfold matchRelax matchRelaxNoPrune
  split
  next hpr =>
    rw [if_neg (not_lt_of_le (by linarith))]
  next hpr => rfl

/-- The match loops with and without the prune agree. -/
lemma matchIter_eq_noPrune (P : SqueezeParams) (mc : ℚ) (i j : Nat) :
    ∀ (n k : Nat) (st : GBLState),
      (∀ k', k ≤ k' → k' < k + n → mc ≤ P.cm k' (P.sublen i k')) →
      matchIter P mc i j n k st = matchIterNoPrune P i j n k st := by
  intro n
  induction n with
  | zero => intro k st _; rfl
  | succ n ih =>
    intro k st hk
    simp only [matchIter, matchIterNoPrune]
    rw [matchRelax_eq_noPrune P mc i j k st (hk k (le_refl _) (by omega))]
    exact ih (k + 1) _ (fun k' h1 h2 => hk k' (by omega) (by omega))

/-- One loop body with and without the prune agree when the floor is
below every match cost the oracle offers inside the block. -/
lemma gblBody_eq_noPrune (P : SqueezeParams) (mc : ℚ) (i : Nat)
    (hii : P.instart ≤ i) (hlt : i < P.inend)
    (hmcH : ∀ i' k, P.instart ≤ i' → i' < P.inend → 3 ≤ k → k ≤ P.leng i' →
      mc ≤ P.cm k (P.sublen i' k)) (st : GBLState) :
    gblBody P mc i st = gblBodyNoPrune P i st := by
  unfold gblBody gblBodyNoPrune matchLoop matchLoopNoPrune
  split
  next h =>
    have hfst := (gblFastIter_fst (P.cm ZOPFLI_MAX_MATCH 1) ZOPFLI_MAX_MATCH
      (i, i - P.instart, st)).1
    have hfst : (gblFastLoop P i (i - P.instart) st).1 = i + ZOPFLI_MAX_MATCH := hfst
    have hcond : i + ZOPFLI_MAX_MATCH * 2 + 1 < P.inend := by
      unfold sameCond at h
      simp only [Bool.and_eq_true, decide_eq_true_eq] at h
      exact h.1.2
    refine congrArg _ ?_
    refine matchIter_eq_noPrune P mc _ _ _ _ _ (fun k' h1 h2 => ?_)
    refine hmcH _ k' (by rw [hfst]; omega) (by rw [hfst]; simp only [ZOPFLI_MAX_MATCH] at *; omega)
      h1 ?_
    have hm1 : min (P.leng (gblFastLoop P i (i - P.instart) st).1)
        (P.inend - (gblFastLoop P i (i - P.instart) st).1) ≤
        P.leng (gblFastLoop P i (i - P.instart) st).1 := min_le_left _ _
    omega
  next h =>
    show (i, matchIter P mc i (i - P.instart)
        (min (P.leng i) (P.inend - i) - 2) 3
        (literalRelax P i (i - P.instart) st)) =
      (i, matchIterNoPrune P i (i - P.instart)
        (min (P.leng i) (P.inend - i) - 2) 3
        (literalRelax P i (i - P.instart) st))
    refine congrArg _ ?_
    refine matchIter_eq_noPrune P mc _ _ _ _ _ (fun k' h1 h2 => ?_)
    refine hmcH i k' hii hlt h1 ?_
    have hm1 : min (P.leng i) (P.inend - i) ≤ P.leng i := min_le_left _ _
    omega

/-- The whole DP loops with and without the prune agree. -/
lemma runGBLAux_eq_noPrune (P : SqueezeParams) (mc : ℚ)
    (hmcH : ∀ i' k, P.instart ≤ i' → i' < P.inend → 3 ≤ k → k ≤ P.leng i' →
      mc ≤ P.cm k (P.sublen i' k)) (fuel : Nat) :
    ∀ (i : Nat) (st : GBLState), P.instart ≤ i →
      runGBLAux P mc fuel i st = runGBLAuxNoPrune P fuel i st := by
  induction fuel with
  | zero => intro i st _; rfl
  | succ fuel ih =>
    intro i st hii
    unfold runGBLAux runGBLAuxNoPrune
    split
    next h =>
      have hge := gblBody_fst_ge P mc i st
      rw [gblBody_eq_noPrune P mc i hii h hmcH st]
      refine ih _ _ ?_
      rw [← gblBody_eq_noPrune P mc i hii h hmcH st]
      omega
    · rfl

/-- C3 (confirmed): when the probe value is a lower bound on every match
cost the oracle offers inside the block, `GetBestLengths` with the
pruning step produces exactly the same final `costs` buffer,
`length_array`, and return value as the identical DP with the pruning
step removed. -/
theorem getBestLengths_prune_equiv (P : SqueezeParams) (la0 : Nat → Nat)
    (hmcH : ∀ i k, P.instart ≤ i → i < P.inend → 3 ≤ k → k ≤ P.leng i →
      getCostModelMinCost P.cm ≤ P.cm k (P.sublen i k)) :
    getBestLengths P la0 = getBestLengthsNoPrune P la0 := by
  unfold getBestLengths getBestLengthsNoPrune
  split
  · rfl
  · exact congrArg
      (fun st : GBLState =>
        (st.costs (P.inend - P.instart), st.lengths, some st.costs))
      (runGBLAux_eq_noPrune P (getCostModelMinCost P.cm) hmcH
        (P.inend - P.instart) P.instart (gblInit la0) (le_refl _))

/-- Witness for C3 at the concrete block `wParams`. -/
theorem getBestLengths_prune_equiv_witness :
    getBestLengths wParams (fun _ => 0) = getBestLengthsNoPrune wParams (fun _ => 0) :=
  getBestLengths_prune_equiv wParams (fun _ => 0)
    (fun i k _ _ _ _ => by rw [wParams_probe]; exact le_refl _)

/-! Claim C4: the run-of-same-byte fast path. -/

/-- Shape of the loop body when the fast-path guard is false. -/
lemma gblBody_noFast (P : SqueezeParams) (mc : ℚ) (i : Nat) (st : GBLState)
    (h : sameCond P i = false) :
    gblBody P mc i st =
      (i, matchLoop P mc i (i - P.instart) (P.leng i)
        (literalRelax P i (i - P.instart) st)) := by
  unfold gblBody
  rw [h]
  simp only [Bool.false_eq_true, if_false]

/-- C4 (amended): the fast path is taken exactly when the four guard
conditions hold with the STRICT comparisons of the source
(`hsame > 2·ZOPFLI_MAX_MATCH`, i.e. a run of at least 517, and
`hsame > ZOPFLI_MAX_MATCH`, i.e. a trailing extent of at least 259 — not
`≥ 516` and `≥ 258` as the claim words it).  When taken, the inner loop
performs `ZOPFLI_MAX_MATCH` steps, the `k`-th of which writes cost
`costs[j+k] + cm(258, 1)` and length 258 at index
`j + ZOPFLI_MAX_MATCH + k`, advancing the position and index by one per
step; all other indices are untouched, and the body resumes at
`i + ZOPFLI_MAX_MATCH`. -/
theorem gblBody_samePath_characterization (P : SqueezeParams) (mc : ℚ)
    (i : Nat) (st : GBLState) :
    (sameCond P i = true ↔
      (ZOPFLI_MAX_MATCH * 2 < P.hsame i (Nat.land i ZOPFLI_WINDOW_MASK) ∧
       P.instart + ZOPFLI_MAX_MATCH + 1 < i ∧
       i + ZOPFLI_MAX_MATCH * 2 + 1 < P.inend ∧
       ZOPFLI_MAX_MATCH <
         P.hsame i (Nat.land (i - ZOPFLI_MAX_MATCH) ZOPFLI_WINDOW_MASK))) ∧
    (sameCond P i = true →
      (gblBody P mc i st).1 = i + ZOPFLI_MAX_MATCH ∧
      (gblFastLoop P i (i - P.instart) st).1 = i + ZOPFLI_MAX_MATCH ∧
      (gblFastLoop P i (i - P.instart) st).2.1 = (i - P.instart) + ZOPFLI_MAX_MATCH ∧
      (∀ k, k < ZOPFLI_MAX_MATCH →
        (gblFastLoop P i (i - P.instart) st).2.2.costs
            ((i - P.instart) + ZOPFLI_MAX_MATCH + k) =
          st.costs ((i - P.instart) + k) + P.cm ZOPFLI_MAX_MATCH 1 ∧
        (gblFastLoop P i (i - P.instart) st).2.2.lengths
            ((i - P.instart) + ZOPFLI_MAX_MATCH + k) = ZOPFLI_MAX_MATCH) ∧
      (∀ m, m < (i - P.instart) + ZOPFLI_MAX_MATCH →
        (gblFastLoop P i (i - P.instart) st).2.2.costs m = st.costs m ∧
        (gblFastLoop P i (i - P.instart) st).2.2.lengths m = st.lengths m) ∧
      (∀ m, (i - P.instart) + ZOPFLI_MAX_MATCH + ZOPFLI_MAX_MATCH ≤ m →
        (gblFastLoop P i (i - P.instart) st).2.2.costs m = st.costs m ∧
        (gblFastLoop P i (i - P.instart) st).2.2.lengths m = st.lengths m)) ∧
    (sameCond P i = false → (gblBody P mc i st).1 = i) := by
  refine ⟨?_, ?_, ?_⟩
  · unfold sameCond
    simp only [Bool.and_eq_true, decide_eq_true_eq, and_assoc]
  · intro h
    refine ⟨?_, ?_, ?_, ?_, ?_, ?_⟩
    · rw [gblBody_fst, h]
      simp
    · exact (gblFastIter_fst _ _ _).1
    · exact (gblFastIter_fst _ _ _).2
    · intro k hk
      exact gblFastIter_write (P.cm ZOPFLI_MAX_MATCH 1) ZOPFLI_MAX_MATCH
        (le_refl _) (i, i - P.instart, st) k hk
    · intro m hm
      exact gblFastIter_lo _ _ (i, i - P.instart, st) m hm
    · intro m hm
      exact gblFastIter_hi _ _ (i, i - P.instart, st) m hm
  · intro h
    rw [gblBody_fst, h]
    simp

/-- A concrete block on which the fast-path guard is satisfied. -/
def wParamsFast : SqueezeParams :=
  { instart := 0, inend := 900, inp := fun _ => 120, cm := fun _ _ => 1,
    leng := fun _ => 0, sublen := fun _ _ => 1, hsame := fun _ _ => 1000,
    flmDist := fun _ _ => 1 }

/-- Witness for the amended C4 theorem: on `wParamsFast` at position 300
the fast path fires, resumes at 558, and writes length 258 at index 558. -/
theorem gblBody_samePath_characterization_witness :
    (gblBody wParamsFast 1 300 (gblInit (fun _ => 0))).1 = 558 ∧
    (gblFastLoop wParamsFast 300 300 (gblInit (fun _ => 0))).2.2.lengths 558 =
      ZOPFLI_MAX_MATCH := by
  obtain ⟨h1, h2, h3⟩ := gblBody_samePath_characterization wParamsFast 1 300
    (gblInit (fun _ => 0))
  have ht := h2 (by
    unfold sameCond
    simp only [Bool.and_eq_true, decide_eq_true_eq]
    norm_num [wParamsFast, ZOPFLI_MAX_MATCH])
  constructor
  · have := ht.1
    rw [show (300 : Nat) + ZOPFLI_MAX_MATCH = 558 by decide] at this
    exact this
  · have := (ht.2.2.2.1 0 (by norm_num [ZOPFLI_MAX_MATCH])).2
    rw [show (300 : Nat) - wParamsFast.instart = 300 from rfl] at this
    rw [show (300 : Nat) + ZOPFLI_MAX_MATCH + 0 = 558 by
      norm_num [ZOPFLI_MAX_MATCH]] at this
    exact this

/-- A concrete block on which the claim's non-strict guard conditions
hold (`hsame` exactly 516) but the source's strict test fails. -/
def cexParams4 : SqueezeParams :=
  { instart := 0, inend := 900, inp := fun _ => 120, cm := fun _ _ => 0,
    leng := fun _ => 0, sublen := fun _ _ => 1, hsame := fun _ _ => 516,
    flmDist := fun _ _ => 1 }

/-- C4 counterexample: at position 300 of `cexParams4` all four
conditions as worded by the claim hold (`run ≥ 2·ZOPFLI_MAX_MATCH = 516`
and `extent ≥ ZOPFLI_MAX_MATCH = 258`, with `hsame` returning exactly
516), yet the code's strict test `> 516` fails, the fast path is not
taken, the body resumes at 300 and index 558 keeps its sentinel cost. -/
theorem samePath_guard_counterexample :
    sameCondClaim cexParams4 300 ∧
    sameCond cexParams4 300 = false ∧
    (gblBody cexParams4 0 300 (gblInit (fun _ => 0))).1 = 300 ∧
    (gblBody cexParams4 0 300 (gblInit (fun _ => 0))).2.costs 558 =
      ZOPFLI_LARGE_FLOAT := by
  have hnf : sameCond cexParams4 300 = false := rfl
  refine ⟨by unfold sameCondClaim; norm_num [cexParams4, ZOPFLI_MAX_MATCH], hnf, ?_, ?_⟩
  · rw [gblBody_fst, hnf]
    simp
  · rw [gblBody_noFast cexParams4 0 300 _ hnf]
    show (matchLoop cexParams4 0 300 300 (cexParams4.leng 300)
      (literalRelax cexParams4 300 300 (gblInit (fun _ => 0)))).costs 558 = _
    rw [show cexParams4.leng 300 = 0 from rfl]
    unfold matchLoop
    rw [show min 0 (cexParams4.inend - 300) - 2 = 0 by simp]
    show (literalRelax cexParams4 300 300 (gblInit (fun _ => 0))).costs 558 = _
    rw [(literalRelax_frame cexParams4 300 300 _ 558 (by norm_num)).1]
    simp [gblInit]

/-! Claim C5: the `length_array` invariant. -/

/-- The `length_array` invariant: entry 0 is 0; a positive entry whose
cost has been improved off the sentinel has been written; and every
written entry is 1 or a match length in `[3, ZOPFLI_MAX_MATCH]`, bounded
by its own index. -/
def gblLenInv (st : GBLState) : Prop :=
  st.lengths 0 = 0 ∧
  ∀ j, 0 < j →
    (st.costs j ≠ ZOPFLI_LARGE_FLOAT → st.lengths j ≠ 0) ∧
    (st.lengths j ≠ 0 →
      (st.lengths j = 1 ∨ (3 ≤ st.lengths j ∧ st.lengths j ≤ ZOPFLI_MAX_MATCH)) ∧
      st.lengths j ≤ j)

/-- The literal relaxation preserves the `length_array` invariant. -/
lemma literalRelax_lenInv (P : SqueezeParams) (i j : Nat) (st : GBLState)
    (hg : gblLenInv st) : gblLenInv (literalRelax P i j st) := by
  unfold literalRelax
  split
  · split
    next hlt =>
      constructor
      · dsimp only
        rw [Function.update_apply, if_neg (by omega)]
        exact hg.1
      · intro m hm
        dsimp only
        rw [Function.update_apply, Function.update_apply]
        by_cases he : m = j + 1
        · rw [if_pos he, if_pos he]
          refine ⟨fun _ => one_ne_zero, fun _ => ⟨Or.inl rfl, by omega⟩⟩
        · rw [if_neg he, if_neg he]
          exact hg.2 m hm
    · exact hg
  · exact hg

/-- One match relaxation preserves the `length_array` invariant, for an
admissible length `k ∈ [3, ZOPFLI_MAX_MATCH]`. -/
lemma matchRelax_lenInv (P : SqueezeParams) (mc : ℚ) (i j k : Nat)
    (hk3 : 3 ≤ k) (hk258 : k ≤ ZOPFLI_MAX_MATCH) (st : GBLState)
    (hg : gblLenInv st) : gblLenInv (matchRelax P mc i j k st) := by
  unfold matchRelax
  split
  · exact hg
  · split
    next hlt =>
      constructor
      · dsimp only
        rw [Function.update_apply, if_neg (by omega)]
        exact hg.1
      · intro m hm
        dsimp only
        rw [Function.update_apply, Function.update_apply]
        by_cases he : m = j + k
        · rw [if_pos he, if_pos he]
          refine ⟨fun _ => by omega, fun _ => ⟨Or.inr ⟨hk3, hk258⟩, by omega⟩⟩
        · rw [if_neg he, if_neg he]
          exact hg.2 m hm
    · exact hg

/-- The match loop preserves the `length_array` invariant when every
iterated length is in `[3, ZOPFLI_MAX_MATCH]`. -/
lemma matchIter_lenInv (P : SqueezeParams) (mc : ℚ) (i j : Nat) :
    ∀ (n k : Nat) (st : GBLState),
      (∀ k', k ≤ k' → k' < k + n → 3 ≤ k' ∧ k' ≤ ZOPFLI_MAX_MATCH) →
      gblLenInv st → gblLenInv (matchIter P mc i j n k st) := by
  intro n
  induction n with
  | zero => intro k st _ hg; exact hg
  | succ n ih =>
    intro k st hk hg
    simp only [matchIter]
    refine ih (k + 1) _ (fun k' h1 h2 => hk k' (by omega) (by omega)) ?_
    exact matchRelax_lenInv P mc i j k (hk k (le_refl _) (by omega)).1
      (hk k (le_refl _) (by omega)).2 st hg

/-- One fast-path write preserves the `length_array` invariant. -/
lemma gblFastStep_lenInv (sc : ℚ) (s : Nat × Nat × GBLState)
    (hg : gblLenInv s.2.2) : gblLenInv (gblFastStep sc s).2.2 := by
  unfold gblFastStep
  constructor
  · dsimp only
    rw [Function.update_apply, if_neg (by unfold ZOPFLI_MAX_MATCH; omega)]
    exact hg.1
  · intro m hm
    dsimp only
    rw [Function.update_apply, Function.update_apply]
    by_cases he : m = s.2.1 + ZOPFLI_MAX_MATCH
    · rw [if_pos he, if_pos he]
      refine ⟨fun _ => by unfold ZOPFLI_MAX_MATCH; omega,
        fun _ => ⟨Or.inr ⟨by unfold ZOPFLI_MAX_MATCH; omega, le_refl _⟩, by omega⟩⟩
    · rw [if_neg he, if_neg he]
      exact hg.2 m hm

/-- The fast-path loop preserves the `length_array` invariant. -/
lemma gblFastIter_lenInv (sc : ℚ) :
    ∀ (n : Nat) (s : Nat × Nat × GBLState),
      gblLenInv s.2.2 → gblLenInv (gblFastIter sc n s).2.2 := by
  intro n
  induction n with
  | zero => intro s hg; exact hg
  | succ n ih =>
    intro s hg
    exact ih (gblFastStep sc s) (gblFastStep_lenInv sc s hg)

/-- The loop body preserves the `length_array` invariant, provided the
oracle never offers a match longer than `ZOPFLI_MAX_MATCH`. -/
lemma gblBody_lenInv (P : SqueezeParams) (mc : ℚ)
    (hleng : ∀ i', P.leng i' ≤ ZOPFLI_MAX_MATCH) (i : Nat) (st : GBLState)
    (hg : gblLenInv st) : gblLenInv (gblBody P mc i st).2 := by
  unfold gblBody matchLoop
  have hmin : ∀ (a b : Nat), min (P.leng a) b ≤ ZOPFLI_MAX_MATCH :=
    fun a b => le_trans (min_le_left _ _) (hleng a)
  split
  next h =>
    refine matchIter_lenInv P mc _ _ _ 3 _ (fun k' h1 h2 => ⟨h1, ?_⟩) ?_
    · have := hmin (gblFastLoop P i (i - P.instart) st).1
        (P.inend - (gblFastLoop P i (i - P.instart) st).1)
      omega
    · refine literalRelax_lenInv P _ _ _ ?_
      exact gblFastIter_lenInv (P.cm ZOPFLI_MAX_MATCH 1) ZOPFLI_MAX_MATCH
        (i, i - P.instart, st) hg
  next h =>
    refine matchIter_lenInv P mc _ _ _ 3 _ (fun k' h1 h2 => ⟨h1, ?_⟩) ?_
    · have := hmin (i, i - P.instart, st).1 (P.inend - (i, i - P.instart, st).1)
      omega
    · exact literalRelax_lenInv P _ _ _ hg

/-- The whole DP loop preserves the `length_array` invariant. -/
lemma runGBLAux_lenInv (P : SqueezeParams) (mc : ℚ)
    (hleng : ∀ i', P.leng i' ≤ ZOPFLI_MAX_MATCH) (fuel : Nat) :
    ∀ (i : Nat) (st : GBLState), gblLenInv st →
      gblLenInv (runGBLAux P mc fuel i st) := by
  induction fuel with
  | zero => intro i st hg; exact hg
  | succ fuel ih =>
    intro i st hg
    unfold runGBLAux
    split
    · exact ih _ _ (gblBody_lenInv P mc hleng i st hg)
    · exact hg

/-- The zero-initialized starting state satisfies the invariant. -/
lemma gblInit_lenInv : gblLenInv (gblInit (fun _ => 0)) := by
  constructor
  · rfl
  · intro j hj
    constructor
    · intro hc
      exfalso
      apply hc
      show (if j = 0 then (0 : ℚ) else ZOPFLI_LARGE_FLOAT) = ZOPFLI_LARGE_FLOAT
      rw [if_neg (by omega)]
    · intro h
      exfalso
      apply h
      show Function.update (fun _ => 0) 0 0 j = 0
      rw [Function.update_apply]
      split <;> rfl

/-- C5 (confirmed): after `GetBestLengths` completes on a non-empty block
with a zero-initialized `length_array` (modelling fresh memory) and an
oracle capped at `ZOPFLI_MAX_MATCH`, `length_array[0] = 0`; every written
entry (in particular every entry whose cost was improved off the
sentinel) is either 1 or a match length in `[3, 258]` and is bounded by
its own index; and this invariant is preserved by every relaxation step
(the loop body consisting of the fast path, the literal relaxation and
the match loop). -/
theorem getBestLengths_lengthArray_invariant (P : SqueezeParams)
    (hne : P.instart < P.inend)
    (hleng : ∀ i', P.leng i' ≤ ZOPFLI_MAX_MATCH) :
    ((getBestLengths P (fun _ => 0)).2.1 0 = 0) ∧
    (∀ j cf, 0 < j → (getBestLengths P (fun _ => 0)).2.2 = some cf →
      cf j ≠ ZOPFLI_LARGE_FLOAT → (getBestLengths P (fun _ => 0)).2.1 j ≠ 0) ∧
    (∀ j, 0 < j → (getBestLengths P (fun _ => 0)).2.1 j ≠ 0 →
      ((getBestLengths P (fun _ => 0)).2.1 j = 1 ∨
        (3 ≤ (getBestLengths P (fun _ => 0)).2.1 j ∧
         (getBestLengths P (fun _ => 0)).2.1 j ≤ ZOPFLI_MAX_MATCH)) ∧
      (getBestLengths P (fun _ => 0)).2.1 j ≤ j) ∧
    (∀ (mc : ℚ) (i : Nat) (st : GBLState), gblLenInv st →
      gblLenInv (gblBody P mc i st).2) := by
  have hneq : P.instart ≠ P.inend := by omega
  have hfin : gblLenInv (runGBLAux P (getCostModelMinCost P.cm)
      (P.inend - P.instart) P.instart (gblInit (fun _ => 0))) :=
    runGBLAux_lenInv P (getCostModelMinCost P.cm) hleng
      (P.inend - P.instart) P.instart _ gblInit_lenInv
  have hproj : (getBestLengths P (fun _ => 0)).2.1 =
      (runGBLAux P (getCostModelMinCost P.cm) (P.inend - P.instart)
        P.instart (gblInit (fun _ => 0))).lengths := by
    unfold getBestLengths
    rw [if_neg hneq]
  have hproj2 : (getBestLengths P (fun _ => 0)).2.2 =
      some (runGBLAux P (getCostModelMinCost P.cm) (P.inend - P.instart)
        P.instart (gblInit (fun _ => 0))).costs := by
    unfold getBestLengths
    rw [if_neg hneq]
  refine ⟨?_, ?_, ?_, ?_⟩
  · rw [hproj]
    exact hfin.1
  · intro j cf hj hcf hne0
    rw [hproj2] at hcf
    rw [hproj]
    refine (hfin.2 j hj).1 ?_
    rw [show (runGBLAux P (getCostModelMinCost P.cm) (P.inend - P.instart)
      P.instart (gblInit (fun _ => 0))).costs = cf from (Option.some.inj hcf)]
    exact hne0
  · intro j hj hne0
    rw [hproj] at hne0 ⊢
    exact (hfin.2 j hj).2 hne0
  · intro mc i st hg
    exact gblBody_lenInv P mc hleng i st hg

/-- Witness for C5 at the concrete block `wParams`. -/
theorem getBestLengths_lengthArray_invariant_witness :
    (getBestLengths wParams (fun _ => 0)).2.1 0 = 0 := by
  exact (getBestLengths_lengthArray_invariant wParams (by norm_num [wParams])
    (fun i' => by norm_num [wParams, ZOPFLI_MAX_MATCH])).1

/-! Claim C6: termination and path-sum of `TraceBackwards`. -/

/-- The traceback loop terminates within `index` iterations under the
`length_array` invariant, and the collected path sums (with the
accumulator) to the starting index. -/
lemma traceAux_spec (lengths : Nat → Nat) (size : Nat)
    (hinv : ∀ j, 0 < j → j ≤ size →
      (lengths j = 1 ∨ (3 ≤ lengths j ∧ lengths j ≤ ZOPFLI_MAX_MATCH)) ∧
      lengths j ≤ j) :
    ∀ (fuel index : Nat) (acc : List Nat), 0 < index → index ≤ size →
      index ≤ fuel →
      ∃ p, traceAux lengths fuel index acc = some p ∧
        p.sum = acc.sum + index := by
  intro fuel
  induction fuel with
  | zero => intro index acc h1 h2 h3; omega
  | succ fuel ih =>
    intro index acc h1 h2 h3
    have hlen := hinv index h1 h2
    have hl1 : 1 ≤ lengths index := by
      rcases hlen.1 with h | h <;> omega
    have hli : lengths index ≤ index := hlen.2
    unfold traceAux
    by_cases hz : index - lengths index = 0
    · rw [if_pos hz]
      refine ⟨acc ++ [lengths index], rfl, ?_⟩
      rw [List.sum_append]
      have heq : lengths index = index := by omega
      simp [heq]
    · rw [if_neg hz]
      obtain ⟨p, hp, hs⟩ := ih (index - lengths index) (acc ++ [lengths index])
        (by omega) (by omega) (by omega)
      refine ⟨p, hp, ?_⟩
      rw [hs, List.sum_append]
      simp only [List.sum_cons, List.sum_nil]
      omega

/-- C6 (confirmed): under the `length_array` invariant (`length_array[j]`
is 1 or in `[3, 258]` and at most `j` for every `j ∈ (0, size]`),
`TraceBackwards` terminates — the fuel `size` suffices because the index
strictly decreases — and after the in-place reversal produces a path
whose edge lengths sum to exactly `size`; for `size = 0` the path is
empty. -/
theorem traceBackwards_terminates_sum (size : Nat) (lengths : Nat → Nat)
    (hinv : ∀ j, 0 < j → j ≤ size →
      (lengths j = 1 ∨ (3 ≤ lengths j ∧ lengths j ≤ ZOPFLI_MAX_MATCH)) ∧
      lengths j ≤ j) :
    ∃ p, traceBackwards size lengths = some p ∧ p.sum = size ∧
      (size = 0 → p = []) ∧
      (∀ q, traceAux lengths size size [] = some q → p = q.reverse) := by
  by_cases h0 : size = 0
  · subst h0
    refine ⟨[], rfl, rfl, fun _ => rfl, ?_⟩
    intro q hq
    unfold traceAux at hq
    cases hq
  · obtain ⟨q, hq, hs⟩ := traceAux_spec lengths size hinv size size []
      (by omega) (le_refl _) (le_refl _)
    refine ⟨q.reverse, ?_, ?_, fun h => absurd h h0, ?_⟩
    · unfold traceBackwards
      rw [if_neg h0, hq]
      rfl
    · rw [List.sum_reverse, hs]
      simp
    · intro q' hq'
      rw [hq] at hq'
      rw [Option.some.inj hq']

/-- Witness for C6: a size-4 traceback with a literal step and a
length-3 match step. -/
theorem traceBackwards_terminates_sum_witness :
    ∃ p, traceBackwards 4 (fun j => if j = 0 then 0 else if j ≤ 2 then 1 else 3) =
      some p ∧ p.sum = 4 := by
  obtain ⟨p, hp, hs, _⟩ := traceBackwards_terminates_sum 4
    (fun j => if j = 0 then 0 else if j ≤ 2 then 1 else 3)
    (by
      intro j h1 h2
      interval_cases j <;> simp [ZOPFLI_MAX_MATCH])
  exact ⟨p, hp, hs⟩

/-! Claims C7 and C8: the iterated optimizer. -/

/-- C7 (confirmed): the output store, `beststats` and `bestcost` are
updated exactly in the iterations whose true dynamic-Huffman block size
is strictly below the current `bestcost`, and are left unchanged
otherwise; with zero iterations the loop body never runs, `bestcost`
stays `ZOPFLI_LARGE_FLOAT`, and nothing is ever copied into the output
store. -/
theorem zopfliLZ77Optimal_update_frame {Store Stats Ran : Type}
    (O : OptOracles Store Stats Ran) :
    ((zopfliLZ77Optimal O 0).out = none ∧
     (zopfliLZ77Optimal O 0).bestcost = ZOPFLI_LARGE_FLOAT) ∧
    (∀ (i : Nat) (st : OptState Store Stats Ran),
      (O.blockSize (O.runStore st.stats) < st.bestcost →
        (optStep O i st).out = some (O.runStore st.stats) ∧
        (optStep O i st).beststats = st.stats ∧
        (optStep O i st).bestcost = O.blockSize (O.runStore st.stats)) ∧
      (¬ O.blockSize (O.runStore st.stats) < st.bestcost →
        (optStep O i st).out = st.out ∧
        (optStep O i st).beststats = st.beststats ∧
        (optStep O i st).bestcost = st.bestcost)) := by
  refine ⟨⟨rfl, rfl⟩, ?_⟩
  intro i st
  constructor
  · intro h
    simp only [optStep, if_pos h]
    split_ifs <;> exact ⟨rfl, rfl, rfl⟩
  · intro h
    simp only [optStep, if_neg h]
    split_ifs <;> exact ⟨rfl, rfl, rfl⟩

/-- A trivial concrete oracle family used for the optimizer claims. -/
def wOracle : OptOracles Unit Unit Unit :=
  { greedy := (), getStats := fun _ => (), runStore := fun _ => (),
    blockSize := fun _ => 5, addWeighed := fun _ _ => (),
    calcStats := fun _ => (), randomize := fun r s => (s, r),
    statsInit := (), ranInit := () }

/-- Witness for C7: with zero iterations nothing is copied, and an
improving iteration copies the current store. -/
theorem zopfliLZ77Optimal_update_frame_witness :
    (zopfliLZ77Optimal wOracle 0).out = none ∧
    (optStep wOracle 0 (optInit wOracle)).out = some () := by
  obtain ⟨h1, h2⟩ := zopfliLZ77Optimal_update_frame wOracle
  refine ⟨h1.1, ?_⟩
  have h3 := (h2 0 (optInit wOracle)).1 (by
    show (5 : ℚ) < ZOPFLI_LARGE_FLOAT
    unfold ZOPFLI_LARGE_FLOAT
    norm_num)
  exact h3.1

/-- One optimizer iteration never increases the retained best cost. -/
lemma optStep_bestcost_le {Store Stats Ran : Type}
    (O : OptOracles Store Stats Ran) (i : Nat) (st : OptState Store Stats Ran) :
    (optStep O i st).bestcost ≤ st.bestcost := by
  by_cases h1 : O.blockSize (O.runStore st.stats) < st.bestcost
  · simp only [optStep, if_pos h1]
    split_ifs <;> exact le_of_lt h1
  · simp only [optStep, if_neg h1]
    split_ifs <;> exact le_of_eq rfl

/-- After one optimizer iteration the retained best cost is at most that
iteration's true block size. -/
lemma optStep_bestcost_le_cost {Store Stats Ran : Type}
    (O : OptOracles Store Stats Ran) (i : Nat) (st : OptState Store Stats Ran) :
    (optStep O i st).bestcost ≤ O.blockSize (O.runStore st.stats) := by
  by_cases h1 : O.blockSize (O.runStore st.stats) < st.bestcost
  · simp only [optStep, if_pos h1]
    split_ifs <;> exact le_of_eq rfl
  · simp only [optStep, if_neg h1]
    split_ifs <;> exact le_of_not_lt h1

/-- The retained best cost is non-increasing along any run of optimizer
iterations. -/
lemma optFold_bestcost_le {Store Stats Ran : Type}
    (O : OptOracles Store Stats Ran) (l : List Nat) :
    ∀ (st : OptState Store Stats Ran),
      (l.foldl (fun st i => optStep O i st) st).bestcost ≤ st.bestcost := by
  induction l with
  | nil => intro st; exact le_refl _
  | cons x xs ih =>
    intro st
    exact le_trans (ih (optStep O x st)) (optStep_bestcost_le O x st)

/-- C8 (amended): the final retained `bestcost` is at most the true
dynamic-Huffman block size of EVERY statistics-driven iteration's parse
(in particular the first).  It is not in general bounded by the block
size of the greedy seed, whose size is never evaluated. -/
theorem zopfliLZ77Optimal_bestcost_le_iterations {Store Stats Ran : Type}
    (O : OptOracles Store Stats Ran) (n t : Nat) (ht : t < n) :
    (zopfliLZ77Optimal O n).bestcost ≤
      O.blockSize (O.runStore (zopfliLZ77Optimal O t).stats) := by
  obtain ⟨m, rfl⟩ : ∃ m, n = (t + 1) + m := ⟨n - (t + 1), by omega⟩
  unfold zopfliLZ77Optimal
  rw [List.range_add, List.foldl_append]
  refine le_trans (optFold_bestcost_le O _ _) ?_
  rw [List.range_succ, List.foldl_append]
  exact optStep_bestcost_le_cost O t _

/-- Witness for the amended C8 theorem: one iteration of the trivial
oracle. -/
theorem zopfliLZ77Optimal_bestcost_le_iterations_witness :
    (zopfliLZ77Optimal wOracle 1).bestcost ≤
      wOracle.blockSize (wOracle.runStore (zopfliLZ77Optimal wOracle 0).stats) :=
  zopfliLZ77Optimal_bestcost_le_iterations wOracle 1 0 (by norm_num)

/-- C8 counterexample: with zero iterations `bestcost` remains the
sentinel, which is NOT below the block size of the greedy seed (here 5),
so the claim "final bestcost ≤ block size of the greedy seed, for every
iteration count" is false. -/
theorem bestcost_greedy_counterexample :
    ¬ ((zopfliLZ77Optimal wOracle 0).bestcost ≤
        wOracle.blockSize wOracle.greedy) := by
  show ¬ (ZOPFLI_LARGE_FLOAT ≤ 5)
  unfold ZOPFLI_LARGE_FLOAT
  norm_num

/-! Claim C9: the empty block. -/

/-- C9 (confirmed): when `instart = inend` the core performs no work:
`GetBestLengths` returns 0 without touching `length_array` (and without a
`costs` buffer), `TraceBackwards` on size 0 yields the empty path,
`FollowPath` leaves the store untouched for any path, and the whole
`LZ77OptimalRun` returns cost 0 with an empty path and the store
unchanged. -/
theorem emptyBlock_no_work (P : SqueezeParams) (h : P.instart = P.inend)
    (la0 : Nat → Nat) (store : List LZSym) (path : List Nat) :
    getBestLengths P la0 = (0, la0, none) ∧
    traceBackwards (P.inend - P.instart) la0 = some [] ∧
    followPath P path store = store ∧
    lZ77OptimalRun P la0 store = some (0, la0, [], store) := by
  have hsz : P.inend - P.instart = 0 := by omega
  have h1 : getBestLengths P la0 = (0, la0, none) := by
    unfold getBestLengths
    rw [if_pos h]
  have h3 : ∀ q : List Nat, followPath P q store = store := by
    intro q
    unfold followPath
    rw [if_pos h]
  refine ⟨h1, ?_, h3 path, ?_⟩
  · unfold traceBackwards
    rw [hsz]
    rfl
  · unfold lZ77OptimalRun
    rw [h1, hsz]
    show (traceBackwards 0 la0).map _ = _
    unfold traceBackwards
    rw [if_pos rfl]
    show some (0, la0, [], followPath P [] store) = _
    rw [h3 []]

/-- Witness for C9 on a concrete empty block. -/
def wParamsEmpty : SqueezeParams :=
  { instart := 5, inend := 5, inp := fun _ => 0, cm := fun _ _ => 1,
    leng := fun _ => 0, sublen := fun _ _ => 1, hsame := fun _ _ => 0,
    flmDist := fun _ _ => 1 }

/-- Witness for C9: the empty block `[5, 5)` produces cost 0, an empty
path, and an unchanged (empty) store. -/
theorem emptyBlock_no_work_witness :
    lZ77OptimalRun wParamsEmpty (fun _ => 0) [] = some (0, fun _ => 0, [], []) :=
  (emptyBlock_no_work wParamsEmpty rfl (fun _ => 0) [] []).2.2.2

/-! Claim C10: safety of the DP pass. -/

/-- The literal relaxation preserves non-negativity of all cost entries. -/
lemma literalRelax_nonneg (P : SqueezeParams) (i j : Nat) (st : GBLState)
    (hnn : ∀ l d, 0 ≤ P.cm l d) (h : ∀ m, 0 ≤ st.costs m) :
    ∀ m, 0 ≤ (literalRelax P i j st).costs m := by
  intro m
  unfold literalRelax
  split
  · split
    · dsimp only
      rw [Function.update_apply]
      split
      · exact add_nonneg (h j) (hnn (P.inp i) 0)
      · exact h m
    · exact h m
  · exact h m

/-- One match relaxation preserves non-negativity. -/
lemma matchRelax_nonneg (P : SqueezeParams) (mc : ℚ) (i j k : Nat)
    (st : GBLState) (hnn : ∀ l d, 0 ≤ P.cm l d) (h : ∀ m, 0 ≤ st.costs m) :
    ∀ m, 0 ≤ (matchRelax P mc i j k st).costs m := by
  intro m
  unfold matchRelax
  split
  · exact h m
  · split
    · dsimp only
      rw [Function.update_apply]
      split
      · exact add_nonneg (h j) (hnn k (P.sublen i k))
      · exact h m
    · exact h m

/-- The match loop preserves non-negativity. -/
lemma matchIter_nonneg (P : SqueezeParams) (mc : ℚ) (i j : Nat)
    (hnn : ∀ l d, 0 ≤ P.cm l d) :
    ∀ (n k : Nat) (st : GBLState), (∀ m, 0 ≤ st.costs m) →
      ∀ m, 0 ≤ (matchIter P mc i j n k st).costs m := by
  intro n
  induction n with
  | zero => intro k st h m; exact h m
  | succ n ih =>
    intro k st h m
    exact ih (k + 1) _ (matchRelax_nonneg P mc i j k st hnn h) m

/-- The fast-path loop preserves non-negativity. -/
lemma gblFastIter_nonneg (sc : ℚ) (hsc : 0 ≤ sc) :
    ∀ (n : Nat) (s : Nat × Nat × GBLState), (∀ m, 0 ≤ s.2.2.costs m) →
      ∀ m, 0 ≤ (gblFastIter sc n s).2.2.costs m := by
  intro n
  induction n with
  | zero => intro s h m; exact h m
  | succ n ih =>
    intro s h m
    refine ih (gblFastStep sc s) ?_ m
    intro m'
    unfold gblFastStep
    dsimp only
    rw [Function.update_apply]
    split
    · exact add_nonneg (h s.2.1) hsc
    · exact h m'

/-- The loop body preserves non-negativity. -/
lemma gblBody_nonneg (P : SqueezeParams) (mc : ℚ) (i : Nat) (st : GBLState)
    (hnn : ∀ l d, 0 ≤ P.cm l d) (h : ∀ m, 0 ≤ st.costs m) :
    ∀ m, 0 ≤ (gblBody P mc i st).2.costs m := by
  unfold gblBody matchLoop
  split
  · refine matchIter_nonneg P mc _ _ hnn _ 3 _ ?_
    refine literalRelax_nonneg P _ _ _ hnn ?_
    exact gblFastIter_nonneg (P.cm ZOPFLI_MAX_MATCH 1)
      (hnn ZOPFLI_MAX_MATCH 1) ZOPFLI_MAX_MATCH (i, i - P.instart, st) h
  · refine matchIter_nonneg P mc _ _ hnn _ 3 _ ?_
    exact literalRelax_nonneg P _ _ _ hnn h

/-- The whole DP loop preserves non-negativity. -/
lemma runGBLAux_nonneg (P : SqueezeParams) (mc : ℚ)
    (hnn : ∀ l d, 0 ≤ P.cm l d) (fuel : Nat) :
    ∀ (i : Nat) (st : GBLState), (∀ m, 0 ≤ st.costs m) →
      ∀ m, 0 ≤ (runGBLAux P mc fuel i st).costs m := by
  induction fuel with
  | zero => intro i st h m; exact h m
  | succ fuel ih =>
    intro i st h m
    unfold runGBLAux
    split
    · exact ih _ _ (gblBody_nonneg P mc i st hnn h) m
    · exact h m

/-- The third fast-path guard condition, extracted. -/
lemma sameCond_inend (P : SqueezeParams) (i : Nat) (h : sameCond P i = true) :
    i + ZOPFLI_MAX_MATCH * 2 + 1 < P.inend := by
  unfold sameCond at h
  simp only [Bool.and_eq_true, decide_eq_true_eq] at h
  exact h.1.2

/-- The loop body never writes beyond index `B = inend - instart`. -/
lemma gblBody_frame_high (P : SqueezeParams) (mc : ℚ) (i : Nat) (st : GBLState)
    (hii : P.instart ≤ i) (hlt : i < P.inend) (m : Nat)
    (hm : P.inend - P.instart < m) :
    (gblBody P mc i st).2.costs m = st.costs m ∧
    (gblBody P mc i st).2.lengths m = st.lengths m := by
  unfold gblBody matchLoop gblFastLoop
  split
  next h =>
    have hg := sameCond_inend P i h
    have hfst := (gblFastIter_fst (P.cm ZOPFLI_MAX_MATCH 1) ZOPFLI_MAX_MATCH
      (i, i - P.instart, st))
    have hfst1 : (gblFastIter (P.cm ZOPFLI_MAX_MATCH 1) ZOPFLI_MAX_MATCH
        (i, i - P.instart, st)).1 = i + ZOPFLI_MAX_MATCH := hfst.1
    have hfst2 : (gblFastIter (P.cm ZOPFLI_MAX_MATCH 1) ZOPFLI_MAX_MATCH
        (i, i - P.instart, st)).2.1 = (i - P.instart) + ZOPFLI_MAX_MATCH := hfst.2
    have hhi : (gblFastIter (P.cm ZOPFLI_MAX_MATCH 1) ZOPFLI_MAX_MATCH
          (i, i - P.instart, st)).2.2.costs m = st.costs m ∧
        (gblFastIter (P.cm ZOPFLI_MAX_MATCH 1) ZOPFLI_MAX_MATCH
          (i, i - P.instart, st)).2.2.lengths m = st.lengths m := by
      refine gblFastIter_hi _ _ (i, i - P.instart, st) m ?_
      show (i - P.instart) + ZOPFLI_MAX_MATCH + ZOPFLI_MAX_MATCH ≤ m
      simp only [ZOPFLI_MAX_MATCH] at hg ⊢
      omega
    set q := gblFastIter (P.cm ZOPFLI_MAX_MATCH 1) ZOPFLI_MAX_MATCH
      (i, i - P.instart, st) with hq
    have hm2 : m ≠ q.2.1 + 1 := by
      rw [hfst2]
      simp only [ZOPFLI_MAX_MATCH] at hg ⊢
      omega
    have hmf := matchIter_frame P mc q.1 q.2.1
      (min (P.leng q.1) (P.inend - q.1) - 2) 3
      (literalRelax P q.1 q.2.1 q.2.2) m
      (by
        have hmr : min (P.leng q.1) (P.inend - q.1) ≤ P.inend - q.1 :=
          min_le_right _ _
        rw [hfst1] at hmr
        rw [hfst1, hfst2]
        simp only [ZOPFLI_MAX_MATCH] at hg hmr ⊢
        omega)
    have hlf := literalRelax_frame P q.1 q.2.1 q.2.2 m hm2
    rw [hmf.1, hmf.2, hlf.1, hlf.2]
    exact hhi
  next h =>
    have hm2 : m ≠ (i - P.instart) + 1 := by omega
    have hmf := matchIter_frame P mc i (i - P.instart)
      (min (P.leng i) (P.inend - i) - 2) 3
      (literalRelax P i (i - P.instart) st) m
      (by
        have hmr : min (P.leng i) (P.inend - i) ≤ P.inend - i :=
          min_le_right _ _
        omega)
    have hlf := literalRelax_frame P i (i - P.instart) st m hm2
    rw [hmf.1, hmf.2, hlf.1, hlf.2]
    exact ⟨rfl, rfl⟩

/-- The whole DP loop never writes beyond index `B`. -/
lemma runGBLAux_frame_high (P : SqueezeParams) (mc : ℚ) (fuel : Nat) :
    ∀ (i : Nat) (st : GBLState) (m : Nat), P.instart ≤ i →
      P.inend - P.instart < m →
      (runGBLAux P mc fuel i st).costs m = st.costs m ∧
      (runGBLAux P mc fuel i st).lengths m = st.lengths m := by
  induction fuel with
  | zero => intro i st m _ _; exact ⟨rfl, rfl⟩
  | succ fuel ih =>
    intro i st m hii hm
    unfold runGBLAux
    split
    next h =>
      have hge := gblBody_fst_ge P mc i st
      have h1 := ih ((gblBody P mc i st).1 + 1) (gblBody P mc i st).2 m
        (by omega) hm
      have h2 := gblBody_frame_high P mc i st hii h m hm
      rw [h1.1, h1.2, h2.1, h2.2]
      exact ⟨rfl, rfl⟩
    · exact ⟨rfl, rfl⟩

/-- Shape of the loop body when the fast-path guard is true. -/
lemma gblBody_fast (P : SqueezeParams) (mc : ℚ) (i : Nat) (st : GBLState)
    (h : sameCond P i = true) :
    gblBody P mc i st =
      (i + ZOPFLI_MAX_MATCH,
       matchLoop P mc (i + ZOPFLI_MAX_MATCH) (i - P.instart + ZOPFLI_MAX_MATCH)
         (P.leng (i + ZOPFLI_MAX_MATCH))
         (literalRelax P (i + ZOPFLI_MAX_MATCH) (i - P.instart + ZOPFLI_MAX_MATCH)
           (gblFastLoop P i (i - P.instart) st).2.2)) := by
  have h1 : (gblFastLoop P i (i - P.instart) st).1 = i + ZOPFLI_MAX_MATCH :=
    (gblFastIter_fst _ _ _).1
  have h2 : (gblFastLoop P i (i - P.instart) st).2.1 =
      i - P.instart + ZOPFLI_MAX_MATCH :=
    (gblFastIter_fst _ _ _).2
  unfold gblBody
  simp only [h, if_true]
  rw [h1, h2]

/-- The loop body ends strictly inside the block and leaves the cost at
the next position's offset bounded by `(offset) · M` when every model
cost is at most `M ≥ 0`. -/
lemma gblBody_bound (P : SqueezeParams) (mc : ℚ) (M : ℚ) (hM0 : 0 ≤ M)
    (hcm : ∀ l d, P.cm l d ≤ M) (i : Nat) (st : GBLState)
    (hii : P.instart ≤ i) (hlt : i < P.inend)
    (hst : st.costs (i - P.instart) ≤ ((i - P.instart : Nat) : ℚ) * M) :
    (gblBody P mc i st).1 < P.inend ∧
    (gblBody P mc i st).2.costs ((gblBody P mc i st).1 + 1 - P.instart) ≤
      (((gblBody P mc i st).1 + 1 - P.instart : Nat) : ℚ) * M := by
  rcases Bool.eq_false_or_eq_true (sameCond P i) with h | h
  swap
  · rw [gblBody_noFast P mc i st h]
    refine ⟨hlt, ?_⟩
    have hj1 : i + 1 - P.instart = (i - P.instart) + 1 := by omega
    rw [show ((i, matchLoop P mc i (i - P.instart) (P.leng i)
        (literalRelax P i (i - P.instart) st)) : Nat × GBLState).1 = i from rfl,
      hj1]
    have hfr := (matchIter_frame P mc i (i - P.instart)
      (min (P.leng i) (P.inend - i) - 2) 3
      (literalRelax P i (i - P.instart) st) ((i - P.instart) + 1)
      (Or.inl (by omega))).1
    calc (matchLoop P mc i (i - P.instart) (P.leng i)
          (literalRelax P i (i - P.instart) st)).costs ((i - P.instart) + 1)
        = (literalRelax P i (i - P.instart) st).costs ((i - P.instart) + 1) := hfr
      _ ≤ st.costs (i - P.instart) + P.cm (P.inp i) 0 :=
          literalRelax_bound P i (i - P.instart) st (by omega)
      _ ≤ ((i - P.instart : Nat) : ℚ) * M + M := add_le_add hst (hcm _ _)
      _ = (((i - P.instart) + 1 : Nat) : ℚ) * M := by push_cast; ring
  · have hg := sameCond_inend P i h
    simp only [ZOPFLI_MAX_MATCH] at hg
    rw [gblBody_fast P mc i st h]
    simp only [ZOPFLI_MAX_MATCH]
    refine ⟨by omega, ?_⟩
    have hj1 : i + 258 + 1 - P.instart = (i - P.instart + 258) + 1 := by omega
    rw [hj1]
    have hfr := (matchIter_frame P mc (i + 258) (i - P.instart + 258)
      (min (P.leng (i + 258)) (P.inend - (i + 258)) - 2) 3
      (literalRelax P (i + 258) (i - P.instart + 258)
        (gblFastLoop P i (i - P.instart) st).2.2)
      ((i - P.instart + 258) + 1) (Or.inl (by omega))).1
    have hwr := gblFastIter_write (P.cm ZOPFLI_MAX_MATCH 1) ZOPFLI_MAX_MATCH
      (le_refl _) (i, i - P.instart, st) 0
      (by simp only [ZOPFLI_MAX_MATCH]; omega)
    have hwr1 : (gblFastLoop P i (i - P.instart) st).2.2.costs
        (i - P.instart + 258) = st.costs (i - P.instart) + P.cm 258 1 := by
      have h0 := hwr.1
      rw [Nat.add_zero, Nat.add_zero] at h0
      exact h0
    have h257 : (0 : ℚ) ≤ 257 * M := by
      have := mul_nonneg (show (0:ℚ) ≤ 257 by norm_num) hM0
      linarith
    calc (matchLoop P mc (i + 258) (i - P.instart + 258) (P.leng (i + 258))
          (literalRelax P (i + 258) (i - P.instart + 258)
            (gblFastLoop P i (i - P.instart) st).2.2)).costs
            ((i - P.instart + 258) + 1)
        = (literalRelax P (i + 258) (i - P.instart + 258)
            (gblFastLoop P i (i - P.instart) st).2.2).costs
            ((i - P.instart + 258) + 1) := hfr
      _ ≤ (gblFastLoop P i (i - P.instart) st).2.2.costs (i - P.instart + 258)
            + P.cm (P.inp (i + 258)) 0 :=
          literalRelax_bound P (i + 258) (i - P.instart + 258) _ (by omega)
      _ = st.costs (i - P.instart) + P.cm 258 1 + P.cm (P.inp (i + 258)) 0 := by
          rw [hwr1]
      _ ≤ ((i - P.instart : Nat) : ℚ) * M + M + M := by
          have := hcm 258 1
          have := hcm (P.inp (i + 258)) 0
          linarith
      _ ≤ (((i - P.instart + 258) + 1 : Nat) : ℚ) * M := by push_cast; linarith

/-- The DP loop, started anywhere inside the block with an invariant-
satisfying state, ends with `costs B ≤ B · M`. -/
lemma runGBLAux_bound (P : SqueezeParams) (mc : ℚ) (M : ℚ) (hM0 : 0 ≤ M)
    (hcm : ∀ l d, P.cm l d ≤ M) (fuel : Nat) :
    ∀ (i : Nat) (st : GBLState),
      P.inend ≤ i + fuel → P.instart ≤ i → i ≤ P.inend →
      st.costs (i - P.instart) ≤ ((i - P.instart : Nat) : ℚ) * M →
      (runGBLAux P mc fuel i st).costs (P.inend - P.instart) ≤
        ((P.inend - P.instart : Nat) : ℚ) * M := by
  induction fuel with
  | zero =>
    intro i st hfuel hii hile hst
    have hie : i = P.inend := by omega
    subst hie
    exact hst
  | succ fuel ih =>
    intro i st hfuel hii hile hst
    unfold runGBLAux
    split
    next h =>
      have hge := gblBody_fst_ge P mc i st
      have hb := gblBody_bound P mc M hM0 hcm i st hii h hst
      have hb1 := hb.1
      exact ih ((gblBody P mc i st).1 + 1) (gblBody P mc i st).2
        (by omega) (by omega) (by omega) hb.2
    next h =>
      have hie : i = P.inend := by omega
      subst hie
      exact hst

/-- C10 (amended): under a total cost model that is non-negative and
bounded by some `M` with `B · M` below the `ZOPFLI_LARGE_FLOAT` sentinel,
`GetBestLengths` on a non-empty block is memory- and assertion-safe in
the following sense: every write to `costs` and `length_array` (fast path
included) lands at an index `≤ B = inend - instart`, so all entries beyond
`B` keep their initial values; every cost entry stays non-negative, so
the `assert(costs[j + k] >= 0)` checks hold; and the returned value is
`costs[B]` with `0 ≤ costs[B] < ZOPFLI_LARGE_FLOAT`, so the
`assert(cost < ZOPFLI_LARGE_FLOAT)` in `LZ77OptimalRun` cannot fire.
The claim's stronger statement that EVERY index in `[0, B]` ends up
reachable (below the sentinel) is refuted separately. -/
theorem getBestLengths_safety (P : SqueezeParams) (la0 : Nat → Nat) (M : ℚ)
    (hne : P.instart < P.inend)
    (hnn : ∀ l d, 0 ≤ P.cm l d)
    (hM : ∀ l d, P.cm l d ≤ M)
    (hbound : ((P.inend - P.instart : Nat) : ℚ) * M < ZOPFLI_LARGE_FLOAT) :
    ∃ cf : Nat → ℚ,
      (getBestLengths P la0).2.2 = some cf ∧
      (∀ m, P.inend - P.instart < m →
        cf m = ZOPFLI_LARGE_FLOAT ∧ (getBestLengths P la0).2.1 m = la0 m) ∧
      (∀ m, 0 ≤ cf m) ∧
      (getBestLengths P la0).1 = cf (P.inend - P.instart) ∧
      0 ≤ (getBestLengths P la0).1 ∧
      (getBestLengths P la0).1 < ZOPFLI_LARGE_FLOAT := by
  have hM0 : (0 : ℚ) ≤ M := le_trans (hnn 0 0) (hM 0 0)
  have hneq : ¬ P.instart = P.inend := by omega
  have hinit_nn : ∀ m, 0 ≤ (gblInit la0).costs m := by
    intro m
    show 0 ≤ if m = 0 then (0 : ℚ) else ZOPFLI_LARGE_FLOAT
    split
    · exact le_refl _
    · unfold ZOPFLI_LARGE_FLOAT; positivity
  have hrun := runGBLAux_bound P (getCostModelMinCost P.cm) M hM0 hM
    (P.inend - P.instart) P.instart (gblInit la0) (by omega) (le_refl _)
    (by omega)
    (by
      show (if P.instart - P.instart = 0 then (0:ℚ) else ZOPFLI_LARGE_FLOAT) ≤ _
      rw [if_pos (by omega)]
      exact mul_nonneg (by positivity) hM0)
  have hnnrun := runGBLAux_nonneg P (getCostModelMinCost P.cm) hnn
    (P.inend - P.instart) P.instart (gblInit la0) hinit_nn
  have hfr := runGBLAux_frame_high P (getCostModelMinCost P.cm)
    (P.inend - P.instart) P.instart (gblInit la0)
  refine ⟨(runGBLAux P (getCostModelMinCost P.cm) (P.inend - P.instart)
    P.instart (gblInit la0)).costs, ?_, ?_, ?_, ?_, ?_, ?_⟩
  · unfold getBestLengths
    rw [if_neg hneq]
  · intro m hm
    have h := hfr m (le_refl _) hm
    constructor
    · rw [h.1]
      show (if m = 0 then (0:ℚ) else ZOPFLI_LARGE_FLOAT) = ZOPFLI_LARGE_FLOAT
      rw [if_neg (by omega)]
    · show (getBestLengths P la0).2.1 m = la0 m
      unfold getBestLengths
      rw [if_neg hneq]
      show (runGBLAux P (getCostModelMinCost P.cm) (P.inend - P.instart)
        P.instart (gblInit la0)).lengths m = la0 m
      rw [h.2]
      show Function.update la0 0 0 m = la0 m
      rw [Function.update_apply, if_neg (by omega)]
  · exact hnnrun
  · unfold getBestLengths
    rw [if_neg hneq]
  · show 0 ≤ (getBestLengths P la0).1
    unfold getBestLengths
    rw [if_neg hneq]
    exact hnnrun (P.inend - P.instart)
  · show (getBestLengths P la0).1 < ZOPFLI_LARGE_FLOAT
    unfold getBestLengths
    rw [if_neg hneq]
    exact lt_of_le_of_lt hrun hbound

/-- Witness for C10 at the concrete parameters `wParams` (block `[0, 2)`,
constant cost model 1, bound `M = 1`). -/
theorem getBestLengths_safety_witness :
    ∃ cf : Nat → ℚ,
      (getBestLengths wParams (fun _ => 0)).2.2 = some cf ∧
      (∀ m, wParams.inend - wParams.instart < m →
        cf m = ZOPFLI_LARGE_FLOAT ∧
        (getBestLengths wParams (fun _ => 0)).2.1 m = (fun _ => (0:Nat)) m) ∧
      (∀ m, 0 ≤ cf m) ∧
      (getBestLengths wParams (fun _ => 0)).1 =
        cf (wParams.inend - wParams.instart) ∧
      0 ≤ (getBestLengths wParams (fun _ => 0)).1 ∧
      (getBestLengths wParams (fun _ => 0)).1 < ZOPFLI_LARGE_FLOAT :=
  getBestLengths_safety wParams (fun _ => 0) 1
    (by show (0:Nat) < 2; norm_num)
    (fun _ _ => by show (0:ℚ) ≤ 1; norm_num)
    (fun _ _ => by show (1:ℚ) ≤ 1; norm_num)
    (by
      show ((2 - 0 : Nat) : ℚ) * 1 < ZOPFLI_LARGE_FLOAT
      unfold ZOPFLI_LARGE_FLOAT
      norm_num)

/-- C10 counterexample parameters: a 778-byte run of the same byte with a
longest-match oracle reporting no matches (`leng = 0`), so the only
forward edges are literals and the fast path.  The run oracle reports
1000, so the fast-path guard holds exactly at `i = 260`; there the fast
path jumps the loop from 260 to 519, and no write ever lands on the
skipped indices 262..517 — in particular index 300 keeps its sentinel. -/
def cexParams10 : SqueezeParams :=
  { instart := 0, inend := 778, inp := fun _ => 120, cm := fun _ _ => 0,
    leng := fun _ => 0, sublen := fun _ _ => 1, hsame := fun _ _ => 1000,
    flmDist := fun _ _ => 1 }

/-- On `cexParams10` the fast-path guard holds exactly at position 260. -/
lemma cex10_mem (i : Nat) : sameCond cexParams10 i = true ↔ i = 260 := by
  show (decide (ZOPFLI_MAX_MATCH * 2 < 1000)
    && decide (0 + ZOPFLI_MAX_MATCH + 1 < i)
    && decide (i + ZOPFLI_MAX_MATCH * 2 + 1 < 778)
    && decide (ZOPFLI_MAX_MATCH < 1000)) = true ↔ i = 260
  simp only [Bool.and_eq_true, decide_eq_true_eq, ZOPFLI_MAX_MATCH]
  omega

/-- Away from position 260 the guard is false. -/
lemma cex10_noFast (i : Nat) (hne : i ≠ 260) :
    sameCond cexParams10 i = false := by
  cases h : sameCond cexParams10 i
  · rfl
  · exact absurd ((cex10_mem i).1 h) hne

/-- Away from 260 the body writes only at `i + 1` (the literal edge): the
match loop is empty since the oracle reports no match. -/
lemma cex10_body (mc : ℚ) (i : Nat) (hne : i ≠ 260) (st : GBLState)
    (m : Nat) (hm : m ≠ i + 1) :
    (gblBody cexParams10 mc i st).2.costs m = st.costs m := by
  rw [gblBody_noFast cexParams10 mc i st (cex10_noFast i hne)]
  show (matchLoop cexParams10 mc i (i - cexParams10.instart)
    (cexParams10.leng i)
    (literalRelax cexParams10 i (i - cexParams10.instart) st)).costs m =
    st.costs m
  rw [show cexParams10.leng i = 0 from rfl]
  unfold matchLoop
  rw [show min 0 (cexParams10.inend - i) - 2 = 0 by simp]
  show (literalRelax cexParams10 i (i - cexParams10.instart) st).costs m =
    st.costs m
  exact (literalRelax_frame cexParams10 i (i - cexParams10.instart) st m
    (by show m ≠ i - 0 + 1; omega)).1

/-- At 260 the fast path fires: the body ends at 518 and leaves index 300
untouched (all its writes land at 518..519). -/
lemma cex10_body260 (mc : ℚ) (st : GBLState) :
    (gblBody cexParams10 mc 260 st).1 = 518 ∧
    (gblBody cexParams10 mc 260 st).2.costs 300 = st.costs 300 := by
  have ht : sameCond cexParams10 260 = true := (cex10_mem 260).2 rfl
  rw [gblBody_fast cexParams10 mc 260 st ht]
  refine ⟨by show 260 + ZOPFLI_MAX_MATCH = 518; simp [ZOPFLI_MAX_MATCH], ?_⟩
  show (matchLoop cexParams10 mc (260 + ZOPFLI_MAX_MATCH)
    (260 - cexParams10.instart + ZOPFLI_MAX_MATCH)
    (cexParams10.leng (260 + ZOPFLI_MAX_MATCH))
    (literalRelax cexParams10 (260 + ZOPFLI_MAX_MATCH)
      (260 - cexParams10.instart + ZOPFLI_MAX_MATCH)
      (gblFastLoop cexParams10 260 (260 - cexParams10.instart) st).2.2)).costs
    300 = st.costs 300
  rw [show cexParams10.leng (260 + ZOPFLI_MAX_MATCH) = 0 from rfl]
  unfold matchLoop
  rw [show min 0 (cexParams10.inend - (260 + ZOPFLI_MAX_MATCH)) - 2 = 0 by simp]
  show (literalRelax cexParams10 (260 + ZOPFLI_MAX_MATCH)
    (260 - cexParams10.instart + ZOPFLI_MAX_MATCH)
    (gblFastLoop cexParams10 260 (260 - cexParams10.instart) st).2.2).costs
    300 = st.costs 300
  rw [(literalRelax_frame cexParams10 (260 + ZOPFLI_MAX_MATCH)
    (260 - cexParams10.instart + ZOPFLI_MAX_MATCH) _ 300
    (by show (300:Nat) ≠ 260 - 0 + ZOPFLI_MAX_MATCH + 1;
        simp only [ZOPFLI_MAX_MATCH]; omega)).1]
  exact (gblFastIter_lo (cexParams10.cm ZOPFLI_MAX_MATCH 1) ZOPFLI_MAX_MATCH
    (260, 260 - cexParams10.instart, st) 300
    (by show (300:Nat) < 260 - 0 + ZOPFLI_MAX_MATCH;
        simp only [ZOPFLI_MAX_MATCH]; omega)).1

/-- Started anywhere at or below 260 with `costs 300` at the sentinel,
the DP loop on `cexParams10` leaves `costs 300` at the sentinel. -/
lemma cex10_run (mc : ℚ) (fuel : Nat) :
    ∀ (i : Nat) (st : GBLState), i ≤ 260 →
      st.costs 300 = ZOPFLI_LARGE_FLOAT →
      (runGBLAux cexParams10 mc fuel i st).costs 300 = ZOPFLI_LARGE_FLOAT := by
  induction fuel with
  | zero => intro i st _ h; exact h
  | succ fuel ih =>
    intro i st hi h
    unfold runGBLAux
    split
    next hlt =>
      by_cases h260 : i = 260
      · subst h260
        have hb := cex10_body260 mc st
        show (runGBLAux cexParams10 mc fuel
          ((gblBody cexParams10 mc 260 st).1 + 1)
          (gblBody cexParams10 mc 260 st).2).costs 300 = ZOPFLI_LARGE_FLOAT
        rw [hb.1]
        rw [(runGBLAux_frame_low cexParams10 mc fuel (518 + 1)
          (gblBody cexParams10 mc 260 st).2 300
          (by show (300:Nat) + 0 ≤ 519; omega)).1]
        rw [hb.2, h]
      · have hfst : (gblBody cexParams10 mc i st).1 = i := by
          rw [gblBody_fst, cex10_noFast i h260]
          simp
        show (runGBLAux cexParams10 mc fuel
          ((gblBody cexParams10 mc i st).1 + 1)
          (gblBody cexParams10 mc i st).2).costs 300 = ZOPFLI_LARGE_FLOAT
        rw [hfst]
        exact ih (i + 1) _ (by omega)
          (by rw [cex10_body mc i h260 st 300 (by omega)]; exact h)
    · exact h

/-- C10 counterexample: the claim's reachability part fails.  On
`cexParams10` the cost model is total, non-negative and bounded by 1
with `B · 1` far below the sentinel, and the block is non-empty — yet
index 300 ∈ [0, B] ends the pass at `ZOPFLI_LARGE_FLOAT`: the single
fast-path activation at `i = 260` advances the loop from 260 straight to
519, and positions 262..517 are never relaxed. -/
theorem getBestLengths_unreachable_index :
    (∀ l d, (0:ℚ) ≤ cexParams10.cm l d) ∧
    (∀ l d, cexParams10.cm l d ≤ 1) ∧
    ((cexParams10.inend - cexParams10.instart : Nat) : ℚ) * 1 <
      ZOPFLI_LARGE_FLOAT ∧
    cexParams10.instart < cexParams10.inend ∧
    ¬ gblAllReachable cexParams10 := by
  refine ⟨fun _ _ => le_refl _,
    fun _ _ => by show (0:ℚ) ≤ 1; norm_num,
    by show ((778 - 0 : Nat) : ℚ) * 1 < ZOPFLI_LARGE_FLOAT
       unfold ZOPFLI_LARGE_FLOAT; norm_num,
    by show (0:Nat) < 778; omega, ?_⟩
  intro h
  have hsome : (getBestLengths cexParams10 (fun _ => 0)).2.2 =
      some (runGBLAux cexParams10 (getCostModelMinCost cexParams10.cm)
        (cexParams10.inend - cexParams10.instart) cexParams10.instart
        (gblInit (fun _ => 0))).costs := by
    unfold getBestLengths
    rw [if_neg (by show ¬ (0:Nat) = 778; omega)]
  have h300 := h _ hsome 300 (by show (300:Nat) ≤ 778 - 0; omega)
  rw [cex10_run (getCostModelMinCost cexParams10.cm)
    (cexParams10.inend - cexParams10.instart) cexParams10.instart
    (gblInit (fun _ => 0)) (by show (0:Nat) ≤ 260; omega)
    (by show (if (300:Nat) = 0 then (0:ℚ) else ZOPFLI_LARGE_FLOAT) =
          ZOPFLI_LARGE_FLOAT
        rw [if_neg (by omega)])] at h300
  exact lt_irrefl _ h300
